import Mathlib

set_option maxHeartbeats 1000000

/-! Shallow embedding of the request cache and pagination layer of
repo-oracle (server.py): the LRU class, the cache-key function, the
single fetch and the paginating fetch. State is passed explicitly; the
HTTP transport is an oracle indexed by the number of requests made so
far, and every network request and sleep is recorded in an event log. -/

/-- Python values that occur as query-parameter values in this program:
strings and ints (see the call sites in list_issues, search, find_todos
and the page counter added by the paginator). -/
inductive PVal where
  | str (s : String)
  | int (n : Int)
deriving DecidableEq

/-- Parsed JSON payloads (the result of r.json() and the values stored in
the cache). Numbers are modelled as integers; no claim involves fractional
payloads. -/
inductive Json where
  | null
  | bool (b : Bool)
  | num (n : Int)
  | str (s : String)
  | arr (elems : List Json)
  | obj (fields : List (String × Json))

/-- Python's truth test on a JSON value: None, False, 0, empty string,
empty list and empty dict are falsy. -/
def jsonFalsy : Json → Bool
  | Json.null => true
  | Json.bool b => !b
  | Json.num n => n == 0
  | Json.str s => s.data.isEmpty
  | Json.arr l => l.isEmpty
  | Json.obj fs => fs.isEmpty

def Json.isNull : Json → Bool
  | Json.null => true
  | _ => false

/-- The LRU class: an insertion-ordered association list, least recently
used first, most recently used last, with a fixed capacity. -/
structure LRU where
  maxsize : Nat
  entries : List (String × Json)

def LRU.new (m : Nat) : LRU := LRU.mk m []

/-- The raw association-list lookup (no recency side effect); used to state
properties about cache contents. -/
def LRU.lookup (c : LRU) (k : String) : Option Json :=
  (c.entries.find? (fun p => p.1 == k)).map (fun p => p.2)

/-- LRU.get of the source: if the key is present, move its entry to the
most-recent end and return the stored value; otherwise return None
(modelled as Json.null, exactly the sentinel the caller tests against). -/
def LRU.get (c : LRU) (k : String) : LRU × Json :=
  match c.entries.find? (fun p => p.1 == k) with
  | some p => (LRU.mk c.maxsize (c.entries.filter (fun q => q.1 != k) ++ [p]), p.2)
  | none => (c, Json.null)

/-- The dict assignment step of LRU.set: update the key's entry in place
when it exists, else append it at the end. -/
def lruAssign (entries : List (String × Json)) (k : String) (v : Json) : List (String × Json) :=
  if entries.any (fun p => p.1 == k)
  then entries.map (fun p => if p.1 == k then (k, v) else p)
  else entries ++ [(k, v)]

/-- The move_to_end step of LRU.set: drop the key's entry (which the
assignment step just set to v) and append it at the most-recent end. -/
def lruMove (entries : List (String × Json)) (k : String) (v : Json) : List (String × Json) :=
  entries.filter (fun q => q.1 != k) ++ [(k, v)]

/-- The capacity step of LRU.set: when the size exceeds maxsize, popitem
from the least-recent front. -/
def lruTrunc (m : Nat) (entries : List (String × Json)) : List (String × Json) :=
  if m < entries.length then entries.tail else entries

/-- LRU.set of the source: assign (update in place or append), move the key
to the most-recent end, then if the size exceeds maxsize pop the least
recent entry (the front). -/
def LRU.set (c : LRU) (k : String) (v : Json) : LRU :=
  LRU.mk c.maxsize (lruTrunc c.maxsize (lruMove (lruAssign c.entries k v) k v))

/-- Decimal digit character. -/
def digitChar (n : Nat) : Char := Char.ofNat (48 + n)

/-- Fuel-driven most-significant-first decimal digits. -/
def natDigitsAux : Nat → Nat → List Char
  | 0, _ => []
  | fuel+1, n => if n < 10 then [digitChar n] else natDigitsAux fuel (n / 10) ++ [digitChar (n % 10)]

def natDigits (n : Nat) : List Char := natDigitsAux (n + 1) n

/-- Decimal rendering of a Python int, as json.dumps prints it. -/
def intChars (n : Int) : List Char :=
  if n < 0 then '-' :: natDigits n.natAbs else natDigits n.toNat

/-- Lower-case hexadecimal digit character. -/
def hexDigitChar (n : Nat) : Char :=
  if n < 10 then Char.ofNat (48 + n) else Char.ofNat (87 + n)

def hex4 (n : Nat) : List Char :=
  [hexDigitChar (n / 4096 % 16), hexDigitChar (n / 256 % 16),
   hexDigitChar (n / 16 % 16), hexDigitChar (n % 16)]

/-- Per-character escaping of json.dumps with its default ensure_ascii:
backslash and double quote escaped, the usual control shorthands, and a
u-escape for every other character outside printable ASCII, emitted as a
surrogate pair above the basic multilingual plane. -/
def escChar (c : Char) : List Char :=
  if c = '\\' then ['\\', '\\']
  else if c = '"' then ['\\', '"']
  else if c.toNat = 8 then ['\\', 'b']
  else if c.toNat = 9 then ['\\', 't']
  else if c.toNat = 10 then ['\\', 'n']
  else if c.toNat = 12 then ['\\', 'f']
  else if c.toNat = 13 then ['\\', 'r']
  else if 32 ≤ c.toNat ∧ c.toNat ≤ 126 then [c]
  else if c.toNat ≤ 65535 then '\\' :: 'u' :: hex4 c.toNat
  else ('\\' :: 'u' :: hex4 (55296 + (c.toNat - 65536) / 1024)) ++
       ('\\' :: 'u' :: hex4 (56320 + (c.toNat - 65536) % 1024))

def escList : List Char → List Char
  | [] => []
  | c :: cs => escChar c ++ escList cs

/-- A JSON string literal: quote, escaped characters, quote. -/
def quoteChars (s : String) : List Char := '"' :: (escList s.data ++ ['"'])

def pvalChars : PVal → List Char
  | PVal.str s => quoteChars s
  | PVal.int n => intChars n

/-- One serialized object entry, with the default ": " separator. -/
def entryChars (p : String × PVal) : List Char :=
  quoteChars p.1 ++ ':' :: ' ' :: pvalChars p.2

/-- Entries joined with the default ", " separator. -/
def entriesChars : List (String × PVal) → List Char
  | [] => []
  | [p] => entryChars p
  | p :: q :: rest => entryChars p ++ ',' :: ' ' :: entriesChars (q :: rest)

def objChars (m : List (String × PVal)) : List Char :=
  '\x7b' :: (entriesChars m ++ ['\x7d'])

/-- Lexicographic code-point comparison of character lists, the order
Python uses on strings. -/
def listLE : List Char → List Char → Bool
  | [], _ => true
  | _ :: _, [] => false
  | a :: as, b :: bs =>
    if a.toNat < b.toNat then true
    else if b.toNat < a.toNat then false
    else listLE as bs

def strLE (a b : String) : Bool := listLE a.data b.data

/-- Insertion sort of entries by key (keys are distinct in a dict, so the
values are never compared, matching Python's sorted on the item pairs). -/
def insertByKey (p : String × PVal) : List (String × PVal) → List (String × PVal)
  | [] => [p]
  | q :: rest => if strLE p.1 q.1 then p :: q :: rest else q :: insertByKey p rest

def sortByKey : List (String × PVal) → List (String × PVal)
  | [] => []
  | p :: rest => insertByKey p (sortByKey rest)

/-- json.dumps(params, sort_keys=True) for the string-keyed mappings this
program passes. -/
def jsonDumps (params : List (String × PVal)) : String :=
  String.mk (objChars (sortByKey params))

/-- The cache-key function of the source: path, a question mark, then the
sorted-key JSON serialization of the parameters. -/
def cacheKey (path : String) (params : List (String × PVal)) : String :=
  path ++ "?" ++ jsonDumps params

/-- Observable effects: a network request with its path and parameters, or
a sleep of a given number of seconds. -/
inductive Ev where
  | req (path : String) (params : List (String × PVal))
  | sleep (seconds : Nat)
deriving DecidableEq

/-- The mutable state threaded through the fetch layer: the process-wide
cache plus the log of effects performed so far. -/
structure St where
  cache : LRU
  events : List Ev

/-- An HTTP response as the code observes it: status, raw text, parsed
JSON body, the Link header and the two rate-limit headers (already
defaulted to the empty string when absent, as headers.get does). -/
structure HttpResp where
  status : Nat
  text : String
  json : Json
  link : String
  rlRemaining : String
  rlReset : String

/-- requests marks a response ok exactly when the status is below 400. -/
def HttpResp.ok (r : HttpResp) : Bool := r.status < 400

/-- The abstract transport: the response to a request, also a function of
how many requests were issued before it (so retries can observe different
answers). -/
def Tr := String → List (String × PVal) → Nat → HttpResp

def St.nReqs (st : St) : Nat :=
  st.events.countP (fun e => match e with | Ev.req _ _ => true | _ => false)

/-- First n characters of a string (Python slicing is by code point). -/
def strTake (s : String) (n : Nat) : String := String.mk (s.data.take n)

def lowerChar (c : Char) : Char :=
  if 65 ≤ c.toNat ∧ c.toNat ≤ 90 then Char.ofNat (c.toNat + 32) else c

/-- str.lower, modelled on the ASCII range (it is only applied to status
digits, a colon and response-body text in the retry test). -/
def strLower (s : String) : String := String.mk (s.data.map lowerChar)

def listStarts : List Char → List Char → Bool
  | [], _ => true
  | _ :: _, [] => false
  | p :: ps, c :: cs => p == c && listStarts ps cs

/-- str.startswith. -/
def strStarts (s pat : String) : Bool := listStarts pat.data s.data

def listSub : List Char → List Char → Bool
  | pat, [] => pat.isEmpty
  | pat, c :: cs => listStarts pat (c :: cs) || listSub pat cs

/-- Python's "pat in s" substring test. -/
def strContains (s pat : String) : Bool := listSub pat.data s.data

/-- The dict-merge semantics of passing params with an added "page" entry:
an existing key keeps its position with the new value, a fresh key is
appended at the end. -/
def updateParam (ps : List (String × PVal)) (k : String) (v : PVal) : List (String × PVal) :=
  if ps.any (fun p => p.1 == k)
  then ps.map (fun p => if p.1 == k then (k, v) else p)
  else ps ++ [(k, v)]

/-- The three shapes of dict that the source's single fetch returns: a
cache hit (data plus from_cache true, no link key), a fresh success (data,
from_cache false, link and ratelimit headers), or the error dict. -/
inductive GetResult where
  | cached (data : Json)
  | fresh (data : Json) (link : String) (ratelimit : String)
  | failure (error : String) (path : String) (rlRemaining : String) (rlReset : String)

def GetResult.isErr : GetResult → Bool
  | GetResult.failure _ _ _ _ => true
  | _ => false

def GetResult.servedFromCache : GetResult → Bool
  | GetResult.cached _ => true
  | _ => false

def GetResult.dataOf : GetResult → Json
  | GetResult.cached d => d
  | GetResult.fresh d _ _ => d
  | GetResult.failure _ _ _ _ => Json.null

/-- res.get("link") or "": the fresh dict carries its link header, the
cached and error dicts have no link key, so the lookup defaults to the
empty string. -/
def GetResult.linkStr : GetResult → String
  | GetResult.fresh _ l _ => l
  | _ => ""

/-- The network half of the single fetch: issue the request, log it, and
either build the error dict (status, first 200 characters of the body,
rate-limit headers) or parse the body, store it in the cache when caching
is on, and build the success dict. -/
def netFetch (tr : Tr) (st : St) (path : String) (params : List (String × PVal))
    (use_cache : Bool) (key : String) : GetResult × St :=
  let r := tr path params st.nReqs
  let st1 := St.mk st.cache (st.events ++ [Ev.req path params])
  if r.ok = false then
    (GetResult.failure (toString r.status ++ ": " ++ strTake r.text 200) path r.rlRemaining r.rlReset, st1)
  else
    let st2 := if use_cache then St.mk (st1.cache.set key r.json) st1.events else st1
    (GetResult.fresh r.json r.link r.rlRemaining, st2)

/-- The single fetch of the source: compute the key; when caching is on,
consult the cache first and serve a non-None hit without a network call;
otherwise fall through to the network. -/
def _get (tr : Tr) (st : St) (path : String) (params : List (String × PVal))
    (use_cache : Bool) : GetResult × St :=
  let key := cacheKey path params
  if use_cache then
    let s := st.cache.get key
    let st1 := St.mk s.1 st.events
    if s.2.isNull then netFetch tr st1 path params use_cache key
    else (GetResult.cached s.2, st1)
  else netFetch tr st path params use_cache key

/-- The retry test of the paginator: the lowercased error message starts
with "403:" and contains "rate limit". -/
def isRateLimited (e : String) : Bool :=
  strStarts (strLower e) "403:" && strContains (strLower e) "rate limit"

def pageParams (params : List (String × PVal)) (page : Nat) : List (String × PVal) :=
  updateParam params "page" (PVal.int (Int.ofNat page))

/-- One page fetch of the paginator, including the single rate-limit
retry: on a 403 rate-limit failure, sleep two seconds and fetch the same
page once more, yielding whatever that second fetch returns. -/
def fetchPage (tr : Tr) (st : St) (path : String) (params : List (String × PVal))
    (page : Nat) : GetResult × St :=
  match _get tr st path (pageParams params page) true with
  | (GetResult.failure e p a b, st1) =>
    if isRateLimited e then
      _get tr (St.mk st1.cache (st1.events ++ [Ev.sleep 2])) path (pageParams params page) true
    else (GetResult.failure e p a b, st1)
  | (res, st1) => (res, st1)

/-- Dict get with default on an object's field list: the value bound to
the key, or the default when the key is absent. -/
def jsonGetD (fs : List (String × Json)) (k : String) (d : Json) : Json :=
  match fs.find? (fun p => p.1 == k) with
  | some p => p.2
  | none => d

/-- What list.extend appends from a truthy items value: a list yields its
elements, a string iterates into its one-character strings, a dict
iterates into its keys; an int or bool is not iterable and extend raises
TypeError, rendered here as none. -/
def extendItems : Json → Option (List Json)
  | Json.arr l => some l
  | Json.str s => some (s.data.map (fun c => Json.str (String.mk [c])))
  | Json.obj fs => some (fs.map (fun p => Json.str p.1))
  | _ => none

/-- Outcome of extracting one page's collection: a list of items to
append, a stop of the loop on an empty page, or an uncaught exception
escaping the whole paginator. -/
inductive PageStep where
  | items (l : List Json)
  | stop
  | crash

/-- Item extraction of one page: a bare list is taken as is (an empty one
stops the loop); any other payload has its items field read by .get,
which on a dict stops the loop when the field is falsy and otherwise
feeds list.extend -- a truthy non-iterable items value makes that extend
raise TypeError; a payload that is neither list nor dict makes .get
itself raise AttributeError. Both exceptions are uncaught, rendered as
crash. -/
def pageItems (data : Json) : PageStep :=
  match data with
  | Json.arr l => if l.isEmpty then PageStep.stop else PageStep.items l
  | Json.obj fs =>
    let items := jsonGetD fs "items" (Json.arr [])
    if jsonFalsy items then PageStep.stop
    else
      match extendItems items with
      | some l => PageStep.items l
      | none => PageStep.crash
  | _ => PageStep.crash

/-- The terminal shapes of the paginator: the aggregated data dict, the
propagated error dict, or an uncaught exception raised while extracting a
page's items. -/
inductive GetAllResult where
  | success (data : List Json)
  | failure (error : String) (path : String) (rlRemaining : String) (rlReset : String)
  | crash

/-- The while loop of the paginator, with the remaining page budget as the
recursion measure: while the budget is positive, fetch the page (with the
single rate-limit retry), propagate any failure, break on an empty page,
surface an extraction exception as crash, extend the accumulator, break
when the Link header carries no next relation, else advance to the next
page (sleeping first when an inter-page delay was requested). -/
def getAllAux (tr : Tr) (path : String) (params : List (String × PVal)) (sleep_s : Nat) :
    Nat → Nat → List Json → St → GetAllResult × St
  | 0, _, acc, st => (GetAllResult.success acc, st)
  | Nat.succ r, page, acc, st =>
    match fetchPage tr st path params page with
    | (GetResult.failure e p a b, st1) => (GetAllResult.failure e p a b, st1)
    | (res, st1) =>
      match pageItems res.dataOf with
      | PageStep.stop => (GetAllResult.success acc, st1)
      | PageStep.crash => (GetAllResult.crash, st1)
      | PageStep.items l =>
        if strContains res.linkStr "rel=\"next\"" = false then
          (GetAllResult.success (acc ++ l), st1)
        else
          let st2 := if sleep_s ≠ 0 then St.mk st1.cache (st1.events ++ [Ev.sleep sleep_s]) else st1
          getAllAux tr path params sleep_s r (page + 1) (acc ++ l) st2

/-- The paginating fetch of the source: pages are numbered from 1 and at
most max_pages of them are visited. -/
def _get_all (tr : Tr) (path : String) (params : List (String × PVal))
    (max_pages : Nat) (sleep_s : Nat) (st : St) : GetAllResult × St :=
  getAllAux tr path params sleep_s max_pages 1 [] st

/-! Development for claim C1: behaviour of the LRU store under sequences
of get and set operations. -/

/-- A get or set operation on the LRU store. -/
inductive LRUOp where
  | get (k : String)
  | set (k : String) (v : Json)

/-- Run a sequence of operations against a store. -/
def runOps (c : LRU) : List LRUOp → LRU
  | [] => c
  | LRUOp.get k :: rest => runOps (c.get k).1 rest
  | LRUOp.set k v :: rest => runOps (c.set k v) rest

theorem LRU.get_maxsize (c : LRU) (k : String) : ((c.get k).1).maxsize = c.maxsize := by
  unfold LRU.get
  split <;> rfl

theorem LRU.set_maxsize (c : LRU) (k : String) (v : Json) : (c.set k v).maxsize = c.maxsize := rfl

theorem LRU.get_length_le (c : LRU) (k : String) :
    ((c.get k).1).entries.length ≤ c.entries.length := by
  unfold LRU.get
  split
  next q0 hq0 =>
    have hmem := List.mem_of_find?_eq_some hq0
    have hqk := List.find?_some hq0
    have hlt : (c.entries.filter (fun q => q.1 != k)).length < c.entries.length :=
      List.length_filter_lt_length_iff_exists.mpr ⟨q0, hmem, by simp [bne, hqk]⟩
    simp only [List.length_append, List.length_cons, List.length_nil]
    omega
  next => exact Nat.le_refl _

theorem lruMove_lruAssign_length_le (entries : List (String × Json)) (k : String) (v : Json) :
    (lruMove (lruAssign entries k v) k v).length ≤ entries.length + 1 := by
  unfold lruMove lruAssign
  split
  · have h2 : (List.filter (fun q : String × Json => q.1 != k)
        (entries.map (fun p => if p.1 == k then (k, v) else p))).length ≤ entries.length :=
      Nat.le_trans (List.length_filter_le _ _) (Nat.le_of_eq (List.length_map _ _))
    simp only [List.length_append, List.length_cons, List.length_nil]
    omega
  · have h1 : List.filter (fun q : String × Json => q.1 != k) [(k, v)] = [] := by simp
    rw [List.filter_append, h1, List.append_nil]
    have h2 := List.length_filter_le (fun q : String × Json => q.1 != k) entries
    simp only [List.length_append, List.length_cons, List.length_nil]
    omega

theorem lruTrunc_length_le (m : Nat) (l : List (String × Json)) (h : l.length ≤ m + 1) :
    (lruTrunc m l).length ≤ m := by
  unfold lruTrunc
  split
  · rw [List.length_tail]; omega
  · omega

theorem LRU.set_length_le (c : LRU) (k : String) (v : Json) (h : c.entries.length ≤ c.maxsize) :
    (c.set k v).entries.length ≤ c.maxsize := by
  have h2 := lruMove_lruAssign_length_le c.entries k v
  exact lruTrunc_length_le c.maxsize _ (by omega)

theorem runOps_maxsize (ops : List LRUOp) (c : LRU) : (runOps c ops).maxsize = c.maxsize := by
  induction ops generalizing c with
  | nil => rfl
  | cons op rest ih =>
    cases op with
    | get k => rw [runOps, ih, LRU.get_maxsize]
    | set k v => rw [runOps, ih, LRU.set_maxsize]

theorem runOps_length (ops : List LRUOp) (c : LRU) (h : c.entries.length ≤ c.maxsize) :
    (runOps c ops).entries.length ≤ c.maxsize := by
  induction ops generalizing c with
  | nil => exact h
  | cons op rest ih =>
    cases op with
    | get k =>
      rw [runOps]
      have h1 : ((c.get k).1).entries.length ≤ (c.get k).1.maxsize := by
        rw [LRU.get_maxsize]
        exact Nat.le_trans (LRU.get_length_le c k) h
      have := ih (c.get k).1 h1
      rwa [LRU.get_maxsize] at this
    | set k v =>
      rw [runOps]
      have h1 : ((c.set k v)).entries.length ≤ (c.set k v).maxsize := by
        rw [LRU.set_maxsize]
        exact LRU.set_length_le c k v h
      have := ih (c.set k v) h1
      rwa [LRU.set_maxsize] at this

theorem LRU.set_evict (c : LRU) (k : String) (v : Json)
    (hk : ∀ p ∈ c.entries, (p.1 == k) = false)
    (hfull : c.entries.length = c.maxsize) (hpos : 0 < c.maxsize) :
    (c.set k v).entries = c.entries.tail ++ [(k, v)] := by
  have hany : c.entries.any (fun p => p.1 == k) = false :=
    List.any_eq_false.mpr (fun x hx => by simp [hk x hx])
  have hfilter : c.entries.filter (fun q => q.1 != k) = c.entries :=
    List.filter_eq_self.mpr (fun p hp => by simp [bne, hk p hp])
  have h1 : List.filter (fun q : String × Json => q.1 != k) [(k, v)] = [] := by simp
  have hmove : lruMove (lruAssign c.entries k v) k v = c.entries ++ [(k, v)] := by
    unfold lruMove lruAssign
    rw [if_neg (by simp [hany]), List.filter_append, hfilter, h1, List.append_nil]
  show lruTrunc c.maxsize (lruMove (lruAssign c.entries k v) k v) = _
  rw [hmove]
  unfold lruTrunc
  rw [if_pos (by simp only [List.length_append, List.length_cons, List.length_nil]; omega)]
  cases hc : c.entries with
  | nil => exfalso; rw [hc] at hfull; simp at hfull; omega
  | cons a t => simp

theorem LRU.get_touch (c : LRU) (k : String) (p : String × Json)
    (h : c.entries.find? (fun q => q.1 == k) = some p) :
    ((c.get k).1).entries = c.entries.filter (fun q => q.1 != k) ++ [p] := by
  unfold LRU.get
  rw [h]

/-- C1: for every sequence of get and set operations on a store constructed
with capacity maxsize, the number of stored entries stays at most maxsize
(so in particular after every set); a set of a fresh key on a full store
evicts exactly one entry, the least recently touched one at the front, and
keeps the rest; a get of a present key refreshes it by moving its entry to
the most-recent end; and with maxsize 2 the sequence set a, set b, get a,
set c leaves exactly the keys a and c. -/
theorem c1_lru_capacity_and_recency :
    (∀ (m : Nat) (ops : List LRUOp), (runOps (LRU.new m) ops).entries.length ≤ m)
    ∧ (∀ (c : LRU) (k : String) (v : Json),
        (∀ p ∈ c.entries, (p.1 == k) = false) → c.entries.length = c.maxsize →
        0 < c.maxsize → (c.set k v).entries = c.entries.tail ++ [(k, v)])
    ∧ (∀ (c : LRU) (k : String) (q0 : String × Json),
        c.entries.find? (fun q => q.1 == k) = some q0 →
        ((c.get k).1).entries = c.entries.filter (fun q => q.1 != k) ++ [q0])
    ∧ (runOps (LRU.new 2) [LRUOp.set "a" (Json.num 1), LRUOp.set "b" (Json.num 2),
        LRUOp.get "a", LRUOp.set "c" (Json.num 3)]).entries.map Prod.fst = ["a", "c"] := by
  refine ⟨?_, LRU.set_evict, LRU.get_touch, ?_⟩
  · intro m ops
    exact runOps_length ops (LRU.new m) (Nat.zero_le m)
  · rfl

/-- Witness for c1: the size conjunct at a concrete sequence, the eviction
conjunct at a concrete full store, and the touch conjunct at a concrete
present key. -/
theorem c1_lru_capacity_and_recency_witness :
    (runOps (LRU.new 1) [LRUOp.set "a" Json.null, LRUOp.set "b" Json.null]).entries.length ≤ 1
    ∧ ((LRU.mk 1 [("x", Json.num 0)]).set "y" (Json.num 5)).entries
        = ([("x", Json.num 0)] : List (String × Json)).tail ++ [("y", Json.num 5)]
    ∧ ((LRU.mk 2 [("x", Json.num 0), ("z", Json.num 1)]).get "x").1.entries
        = List.filter (fun q => q.1 != "x") [("x", Json.num 0), ("z", Json.num 1)]
          ++ [("x", Json.num 0)] :=
  ⟨c1_lru_capacity_and_recency.1 1 [LRUOp.set "a" Json.null, LRUOp.set "b" Json.null],
   c1_lru_capacity_and_recency.2.1 (LRU.mk 1 [("x", Json.num 0)]) "y" (Json.num 5)
     (by intro p hp; simp at hp; rw [hp]; rfl) rfl (by decide),
   c1_lru_capacity_and_recency.2.2.1 (LRU.mk 2 [("x", Json.num 0), ("z", Json.num 1)]) "x"
     ("x", Json.num 0) rfl⟩

/-! Development for the single-fetch claims C2, C7 and C10. -/

theorem LRU.lookup_get (c : LRU) (k : String) (v : Json) (h : c.lookup k = some v) :
    c.get k = (LRU.mk c.maxsize (c.entries.filter (fun q => q.1 != k) ++ [(k, v)]), v) := by
  unfold LRU.lookup at h
  cases hf : c.entries.find? (fun p => p.1 == k) with
  | none => rw [hf] at h; simp at h
  | some p =>
    rw [hf] at h
    simp at h
    have hk := List.find?_some hf
    have hp : p = (k, v) := by
      cases p with
      | mk a b =>
        have h1 : a = k := eq_of_beq hk
        have h2 : b = v := h
        rw [h1, h2]
    unfold LRU.get
    rw [hf, hp]

theorem find?_filter_ne (l : List (String × Json)) (k j : String) (hjk : j ≠ k) :
    (l.filter (fun q => q.1 != k)).find? (fun q => q.1 == j)
      = l.find? (fun q => q.1 == j) := by
  induction l with
  | nil => rfl
  | cons a t ih =>
    by_cases ha : (a.1 == k) = true
    · have hne : (a.1 != k) = false := by simp [bne, ha]
      have haj : (a.1 == j) = false := by
        rw [eq_of_beq ha]
        exact beq_false_of_ne (fun hh => hjk hh.symm)
      rw [List.filter_cons, hne]
      simp only [Bool.false_eq_true, if_false]
      rw [List.find?_cons, haj, ih]
    · have hne : (a.1 != k) = true := by simp [bne, ha]
      rw [List.filter_cons, hne]
      simp only [if_true]
      rw [List.find?_cons, List.find?_cons]
      cases haj : (a.1 == j) with
      | true => rfl
      | false => exact ih

theorem find?_filter_self (l : List (String × Json)) (k : String) :
    (l.filter (fun q => q.1 != k)).find? (fun q => q.1 == k) = none := by
  rw [List.find?_eq_none]
  intro x hx
  have hq := (List.mem_filter.mp hx).2
  simp [bne] at hq
  simp [hq]

/-- A get never changes what any key looks up to: it only reorders. -/
theorem LRU.lookup_after_get (c : LRU) (k j : String) :
    ((c.get k).1).lookup j = c.lookup j := by
  unfold LRU.get
  cases hf : c.entries.find? (fun p => p.1 == k) with
  | none => rfl
  | some p =>
    have hpk := List.find?_some hf
    unfold LRU.lookup
    simp only
    by_cases hj : j = k
    · rw [hj]
      rw [List.find?_append, find?_filter_self]
      rw [List.find?_cons]
      simp only [hpk]
      rw [hf]
      rfl
    · rw [List.find?_append, find?_filter_ne c.entries k j hj]
      cases hfj : c.entries.find? (fun q => q.1 == j) with
      | some q => rfl
      | none =>
        simp only [Option.none_or]
        rw [List.find?_cons]
        have hpj : (p.1 == j) = false := by
          rw [eq_of_beq hpk]
          exact beq_false_of_ne (fun hh => hj hh.symm)
        rw [hpj]
        rfl

theorem netFetch_bad (tr : Tr) (st : St) (path : String) (params : List (String × PVal))
    (use_cache : Bool) (key : String)
    (hbad : (tr path params st.nReqs).ok = false) :
    netFetch tr st path params use_cache key =
      (GetResult.failure (toString (tr path params st.nReqs).status ++ ": "
        ++ strTake (tr path params st.nReqs).text 200) path
        (tr path params st.nReqs).rlRemaining (tr path params st.nReqs).rlReset,
       St.mk st.cache (st.events ++ [Ev.req path params])) := by
  unfold netFetch
  simp only [hbad]
  rfl

theorem netFetch_good (tr : Tr) (st : St) (path : String) (params : List (String × PVal))
    (use_cache : Bool) (key : String)
    (hok : (tr path params st.nReqs).ok = true) :
    netFetch tr st path params use_cache key =
      (GetResult.fresh (tr path params st.nReqs).json (tr path params st.nReqs).link
        (tr path params st.nReqs).rlRemaining,
       St.mk (if use_cache then st.cache.set key (tr path params st.nReqs).json else st.cache)
         (st.events ++ [Ev.req path params])) := by
  unfold netFetch
  simp only [hok, Bool.true_eq_false, if_false]
  cases use_cache <;> simp

/-- The network half always logs exactly one request and is never marked
as served from the cache. -/
theorem netFetch_shape (tr : Tr) (st : St) (path : String) (params : List (String × PVal))
    (use_cache : Bool) (key : String) :
    (netFetch tr st path params use_cache key).2.events = st.events ++ [Ev.req path params]
    ∧ (netFetch tr st path params use_cache key).1.servedFromCache = false := by
  cases hok : (tr path params st.nReqs).ok with
  | false => rw [netFetch_bad tr st path params use_cache key hok]; exact ⟨rfl, rfl⟩
  | true => rw [netFetch_good tr st path params use_cache key hok]; exact ⟨rfl, rfl⟩

/-- A cached non-null value is served without touching the network: the
single fetch returns the cached dict and only reorders the cache. -/
theorem get_cache_hit (tr : Tr) (st : St) (path : String) (params : List (String × PVal))
    (v : Json) (hv : st.cache.lookup (cacheKey path params) = some v) (hnn : v.isNull = false) :
    _get tr st path params true =
      (GetResult.cached v,
       St.mk (LRU.mk st.cache.maxsize
         (st.cache.entries.filter (fun q => q.1 != cacheKey path params)
           ++ [(cacheKey path params, v)])) st.events) := by
  unfold _get
  simp only [LRU.lookup_get st.cache (cacheKey path params) v hv, hnn]
  rfl

/-- A transport whose every response is ok and carries the JSON null body. -/
def trNullBody : Tr := fun _ _ _ => HttpResp.mk 200 "null" Json.null "" "" ""

/-- A state whose cache holds the JSON null payload under the key of path
/x with no parameters. -/
def stNullCached : St := St.mk (LRU.mk 128 [(cacheKey "/x" [], Json.null)]) []

/-- C2: as stated the claim fails when the previously cached successful
payload is JSON null: the key holds a cached payload, yet the second fetch
is not served from the cache and issues a network request. -/
theorem c2_counterexample :
    stNullCached.cache.lookup (cacheKey "/x" []) = some Json.null
    ∧ (_get trNullBody stNullCached "/x" [] true).1.servedFromCache = false
    ∧ (_get trNullBody stNullCached "/x" [] true).2.events = [Ev.req "/x" []] :=
  ⟨rfl, rfl, rfl⟩

/-- C2 amended: for every path and params whose key holds a previously
cached non-null payload, the fetch with use_cache true returns exactly that
payload in the cached dict (from_cache true) and issues no network call:
the cache is consulted first and the event log gains no request. -/
theorem c2_cache_hit_skips_network (tr : Tr) (st : St) (path : String)
    (params : List (String × PVal)) (v : Json)
    (hv : st.cache.lookup (cacheKey path params) = some v) (hnn : v.isNull = false) :
    (_get tr st path params true).1 = GetResult.cached v
    ∧ (_get tr st path params true).2.events = st.events := by
  rw [get_cache_hit tr st path params v hv hnn]
  exact ⟨rfl, rfl⟩

/-- Witness for c2: a cache holding the number 7 under the key serves it
back with an unchanged event log. -/
theorem c2_cache_hit_skips_network_witness :
    (_get trNullBody (St.mk (LRU.mk 128 [(cacheKey "/x" [], Json.num 7)]) []) "/x" [] true).1
      = GetResult.cached (Json.num 7)
    ∧ (_get trNullBody (St.mk (LRU.mk 128 [(cacheKey "/x" [], Json.num 7)]) []) "/x" [] true).2.events
      = ([] : List Ev) :=
  c2_cache_hit_skips_network trNullBody
    (St.mk (LRU.mk 128 [(cacheKey "/x" [], Json.num 7)]) []) "/x" [] (Json.num 7) rfl rfl

/-- C7: when the network responds with a non-success status, the single
fetch returns the error dict carrying the status code, the first 200
characters of the body and the two rate-limit headers; no cache entry is
written or removed (every key looks up to what it did before), and exactly
the one request is logged. -/
theorem c7_failure_dict_and_no_cache_write (tr : Tr) (st : St) (path : String)
    (params : List (String × PVal)) (use_cache : Bool)
    (hmiss : use_cache = false ∨ (st.cache.get (cacheKey path params)).2.isNull = true)
    (hbad : (tr path params st.nReqs).ok = false) :
    (_get tr st path params use_cache).1 =
      GetResult.failure (toString (tr path params st.nReqs).status ++ ": "
        ++ strTake (tr path params st.nReqs).text 200) path
        (tr path params st.nReqs).rlRemaining (tr path params st.nReqs).rlReset
    ∧ (∀ j : String, ((_get tr st path params use_cache).2).cache.lookup j = st.cache.lookup j)
    ∧ ((_get tr st path params use_cache).2).events = st.events ++ [Ev.req path params] := by
  cases huc : use_cache with
  | false =>
    unfold _get
    simp only [Bool.false_eq_true, if_false]
    rw [netFetch_bad tr st path params false (cacheKey path params) hbad]
    exact ⟨rfl, fun j => rfl, rfl⟩
  | true =>
    have hnull : (st.cache.get (cacheKey path params)).2.isNull = true := by
      cases hmiss with
      | inl h => rw [huc] at h; exact absurd h (by simp)
      | inr h => exact h
    unfold _get
    simp only [if_true, hnull]
    rw [netFetch_bad tr (St.mk (st.cache.get (cacheKey path params)).1 st.events)
      path params true (cacheKey path params) hbad]
    exact ⟨rfl, fun j => LRU.lookup_after_get st.cache (cacheKey path params) j, rfl⟩

/-- A transport answering every request with a 500 error. -/
def tr500 : Tr := fun _ _ _ => HttpResp.mk 500 "boom" Json.null "" "rem" "reset"

/-- Witness for c7: a 500 response on an empty cache yields the error dict
and changes no cache binding. -/
theorem c7_failure_dict_and_no_cache_write_witness :
    (_get tr500 (St.mk (LRU.new 128) []) "/x" [] true).1
      = GetResult.failure "500: boom" "/x" "rem" "reset"
    ∧ ((_get tr500 (St.mk (LRU.new 128) []) "/x" [] true).2).cache.lookup "/x"
      = (LRU.new 128).lookup "/x"
    ∧ ((_get tr500 (St.mk (LRU.new 128) []) "/x" [] true).2).events = [Ev.req "/x" []] :=
  have h := c7_failure_dict_and_no_cache_write tr500 (St.mk (LRU.new 128) []) "/x" [] true
    (Or.inr rfl) rfl
  ⟨h.1, h.2.1 "/x", h.2.2⟩

/-- C10: the absent marker of the LRU coincides with a storable value: get
returns null both when the key is absent and when the stored value is
null; consequently a fetch whose key holds a cached null payload is
treated as a miss, issues a network request and is never served from the
cache; and concretely, a successful null response is stored by the first
call yet the second identical call still hits the network. -/
theorem c10_null_payload_never_served_from_cache :
    (∀ (c : LRU) (k : String), c.lookup k = none → (c.get k).2 = Json.null)
    ∧ (∀ (c : LRU) (k : String), c.lookup k = some Json.null → (c.get k).2 = Json.null)
    ∧ (∀ (tr : Tr) (st : St) (path : String) (params : List (String × PVal)),
        st.cache.lookup (cacheKey path params) = some Json.null →
        (_get tr st path params true).1.servedFromCache = false
        ∧ (_get tr st path params true).2.events = st.events ++ [Ev.req path params])
    ∧ ((_get trNullBody (St.mk (LRU.new 128) []) "/x" [] true).2.cache.lookup (cacheKey "/x" [])
        = some Json.null
      ∧ (_get trNullBody ((_get trNullBody (St.mk (LRU.new 128) []) "/x" [] true).2)
          "/x" [] true).1.servedFromCache = false
      ∧ (_get trNullBody ((_get trNullBody (St.mk (LRU.new 128) []) "/x" [] true).2)
          "/x" [] true).2.events = [Ev.req "/x" [], Ev.req "/x" []]) := by
  refine ⟨?_, ?_, ?_, rfl, rfl, rfl⟩
  · intro c k h
    unfold LRU.lookup at h
    unfold LRU.get
    cases hf : c.entries.find? (fun p => p.1 == k) with
    | none => rfl
    | some p => rw [hf] at h; simp at h
  · intro c k h
    rw [LRU.lookup_get c k Json.null h]
  · intro tr st path params hv
    unfold _get
    simp only [LRU.lookup_get st.cache (cacheKey path params) Json.null hv]
    simp only [Json.isNull, if_true]
    exact ⟨(netFetch_shape tr _ path params true (cacheKey path params)).2,
           (netFetch_shape tr _ path params true (cacheKey path params)).1⟩

/-- Witness for c10: the three universally quantified conjuncts applied at
an empty cache, a cache storing null, and a state whose key caches null. -/
theorem c10_null_payload_never_served_from_cache_witness :
    ((LRU.new 128).get "/k").2 = Json.null
    ∧ ((LRU.mk 128 [("/k", Json.null)]).get "/k").2 = Json.null
    ∧ (_get trNullBody stNullCached "/x" [] true).1.servedFromCache = false :=
  ⟨c10_null_payload_never_served_from_cache.1 (LRU.new 128) "/k" rfl,
   c10_null_payload_never_served_from_cache.2.1 (LRU.mk 128 [("/k", Json.null)]) "/k" rfl,
   (c10_null_payload_never_served_from_cache.2.2.1 trNullBody stNullCached "/x" [] rfl).1⟩

/-! Development for the paginator claims C3, C4, C5, C8 and C9: the four
branch characterizations of the loop body and of the page fetch. -/

theorem fetchPage_rl (tr : Tr) (st : St) (path : String) (params : List (String × PVal))
    (page : Nat) (e p a b : String) (st1 : St)
    (h : _get tr st path (pageParams params page) true = (GetResult.failure e p a b, st1))
    (hrl : isRateLimited e = true) :
    fetchPage tr st path params page
      = _get tr (St.mk st1.cache (st1.events ++ [Ev.sleep 2])) path (pageParams params page) true := by
  unfold fetchPage
  rw [h]
  simp [hrl]

theorem fetchPage_other (tr : Tr) (st : St) (path : String) (params : List (String × PVal))
    (page : Nat) (e p a b : String) (st1 : St)
    (h : _get tr st path (pageParams params page) true = (GetResult.failure e p a b, st1))
    (hrl : isRateLimited e = false) :
    fetchPage tr st path params page = (GetResult.failure e p a b, st1) := by
  unfold fetchPage
  rw [h]
  simp [hrl]

theorem fetchPage_ok (tr : Tr) (st : St) (path : String) (params : List (String × PVal))
    (page : Nat) (res : GetResult) (st1 : St)
    (h : _get tr st path (pageParams params page) true = (res, st1))
    (hne : res.isErr = false) :
    fetchPage tr st path params page = (res, st1) := by
  unfold fetchPage
  rw [h]
  cases res with
  | failure e p a b => simp [GetResult.isErr] at hne
  | cached d => rfl
  | fresh d l rl => rfl

theorem getAllAux_fail (tr : Tr) (path : String) (params : List (String × PVal))
    (sleep_s r page : Nat) (acc : List Json) (st st1 : St) (e p a b : String)
    (h : fetchPage tr st path params page = (GetResult.failure e p a b, st1)) :
    getAllAux tr path params sleep_s (Nat.succ r) page acc st
      = (GetAllResult.failure e p a b, st1) := by
  simp only [getAllAux, h]

theorem getAllAux_stop (tr : Tr) (path : String) (params : List (String × PVal))
    (sleep_s r page : Nat) (acc : List Json) (st st1 : St) (res : GetResult)
    (h : fetchPage tr st path params page = (res, st1)) (hne : res.isErr = false)
    (hempty : pageItems res.dataOf = PageStep.stop) :
    getAllAux tr path params sleep_s (Nat.succ r) page acc st
      = (GetAllResult.success acc, st1) := by
  cases res with
  | failure e p a b => simp [GetResult.isErr] at hne
  | cached d =>
    simp only [GetResult.dataOf] at hempty
    simp only [getAllAux, h, GetResult.dataOf, hempty]
  | fresh d l rl =>
    simp only [GetResult.dataOf] at hempty
    simp only [getAllAux, h, GetResult.dataOf, hempty]

theorem getAllAux_crash (tr : Tr) (path : String) (params : List (String × PVal))
    (sleep_s r page : Nat) (acc : List Json) (st st1 : St) (res : GetResult)
    (h : fetchPage tr st path params page = (res, st1)) (hne : res.isErr = false)
    (hc : pageItems res.dataOf = PageStep.crash) :
    getAllAux tr path params sleep_s (Nat.succ r) page acc st
      = (GetAllResult.crash, st1) := by
  cases res with
  | failure e p a b => simp [GetResult.isErr] at hne
  | cached d =>
    simp only [GetResult.dataOf] at hc
    simp only [getAllAux, h, GetResult.dataOf, hc]
  | fresh d l rl =>
    simp only [GetResult.dataOf] at hc
    simp only [getAllAux, h, GetResult.dataOf, hc]

theorem getAllAux_last (tr : Tr) (path : String) (params : List (String × PVal))
    (sleep_s r page : Nat) (acc : List Json) (st st1 : St) (res : GetResult) (l : List Json)
    (h : fetchPage tr st path params page = (res, st1)) (hne : res.isErr = false)
    (hitems : pageItems res.dataOf = PageStep.items l)
    (hlink : strContains res.linkStr "rel=\"next\"" = false) :
    getAllAux tr path params sleep_s (Nat.succ r) page acc st
      = (GetAllResult.success (acc ++ l), st1) := by
  cases res with
  | failure e p a b => simp [GetResult.isErr] at hne
  | cached d =>
    simp only [GetResult.dataOf] at hitems
    simp only [GetResult.linkStr] at hlink
    simp only [getAllAux, h, GetResult.dataOf, hitems, GetResult.linkStr, hlink]
    rfl
  | fresh d l0 rl =>
    simp only [GetResult.dataOf] at hitems
    simp only [GetResult.linkStr] at hlink
    simp only [getAllAux, h, GetResult.dataOf, hitems, GetResult.linkStr, hlink]
    rfl

theorem getAllAux_cont (tr : Tr) (path : String) (params : List (String × PVal))
    (sleep_s r page : Nat) (acc : List Json) (st st1 : St) (res : GetResult) (l : List Json)
    (h : fetchPage tr st path params page = (res, st1)) (hne : res.isErr = false)
    (hitems : pageItems res.dataOf = PageStep.items l)
    (hlink : strContains res.linkStr "rel=\"next\"" = true) :
    getAllAux tr path params sleep_s (Nat.succ r) page acc st
      = getAllAux tr path params sleep_s r (page + 1) (acc ++ l)
          (if sleep_s ≠ 0 then St.mk st1.cache (st1.events ++ [Ev.sleep sleep_s]) else st1) := by
  cases res with
  | failure e p a b => simp [GetResult.isErr] at hne
  | cached d =>
    simp only [GetResult.dataOf] at hitems
    simp only [GetResult.linkStr] at hlink
    simp only [getAllAux, h, GetResult.dataOf, hitems, GetResult.linkStr, hlink]
    rfl
  | fresh d l0 rl =>
    simp only [GetResult.dataOf] at hitems
    simp only [GetResult.linkStr] at hlink
    simp only [getAllAux, h, GetResult.dataOf, hitems, GetResult.linkStr, hlink]
    rfl

/-- A transport that always answers 403 with a rate-limit body. -/
def tr403 : Tr := fun _ _ _ =>
  HttpResp.mk 403 "API rate limit exceeded for installation" Json.null "" "" ""

/-- A transport with a non-empty first page announcing a next page, and an
empty second page. -/
def trEmptySecond : Tr := fun _ _ n =>
  if n = 0 then HttpResp.mk 200 "" (Json.arr [Json.str "i1"]) "<https://u>; rel=\"next\"" "" ""
  else HttpResp.mk 200 "" (Json.arr []) "" "" ""

/-- A transport answering every page with a dict payload whose items field
is an empty list. -/
def trEmptyItems : Tr := fun _ _ _ =>
  HttpResp.mk 200 "" (Json.obj [("items", Json.arr [])]) "" "" ""

/-- A transport whose every page is non-empty and announces a next page. -/
def trAlwaysMore : Tr := fun _ _ _ =>
  HttpResp.mk 200 "" (Json.arr [Json.num 1]) "<https://u>; rel=\"next\"" "" ""

/-- A transport with a successful first page announcing more, then a 500. -/
def trFailSecond : Tr := fun _ _ n =>
  if n = 0 then HttpResp.mk 200 "" (Json.arr [Json.num 1]) "<https://u>; rel=\"next\"" "" ""
  else HttpResp.mk 500 "boom" Json.null "" "" ""

/-- A transport with page one announcing a next page and page two final. -/
def trTwoPages : Tr := fun _ _ n =>
  if n = 0 then HttpResp.mk 200 "" (Json.arr [Json.num 1]) "<https://u>; rel=\"next\"" "" ""
  else HttpResp.mk 200 "" (Json.arr [Json.num 2]) "" "" ""

/-- C3: a page fetch failing with a 403 rate-limit message is retried
exactly once, for the same page parameters, after a logged backoff sleep
of 2 time units; if the retry also fails the loop propagates that failure
immediately as the terminal result with no further pages; any other
failure is returned immediately with no retry. -/
theorem c3_rate_limit_retry_once :
    (∀ (tr : Tr) (st : St) (path : String) (params : List (String × PVal)) (page : Nat)
       (e p a b : String) (st1 : St),
       _get tr st path (pageParams params page) true = (GetResult.failure e p a b, st1) →
       isRateLimited e = true →
       fetchPage tr st path params page
         = _get tr (St.mk st1.cache (st1.events ++ [Ev.sleep 2])) path
             (pageParams params page) true)
    ∧ (∀ (tr : Tr) (st : St) (path : String) (params : List (String × PVal)) (page : Nat)
       (e p a b : String) (st1 : St),
       _get tr st path (pageParams params page) true = (GetResult.failure e p a b, st1) →
       isRateLimited e = false →
       fetchPage tr st path params page = (GetResult.failure e p a b, st1))
    ∧ (∀ (tr : Tr) (st st1 : St) (path : String) (params : List (String × PVal))
       (sleep_s r page : Nat) (acc : List Json) (e p a b : String),
       fetchPage tr st path params page = (GetResult.failure e p a b, st1) →
       getAllAux tr path params sleep_s (Nat.succ r) page acc st
         = (GetAllResult.failure e p a b, st1)) :=
  ⟨fetchPage_rl,
   fetchPage_other,
   fun tr st st1 path params sleep_s r page acc e p a b h =>
     getAllAux_fail tr path params sleep_s r page acc st st1 e p a b h⟩

/-- Witness for c3: the retry conjunct at a transport that rate-limits
every attempt, and the propagation conjunct after its failed retry. -/
theorem c3_rate_limit_retry_once_witness :
    fetchPage tr403 (St.mk (LRU.new 128) []) "/x" [] 1
      = _get tr403 (St.mk (LRU.new 128) [Ev.req "/x" (pageParams [] 1), Ev.sleep 2])
          "/x" (pageParams [] 1) true
    ∧ getAllAux tr403 "/x" [] 0 (Nat.succ 4) 1 [] (St.mk (LRU.new 128) [])
      = (GetAllResult.failure "403: API rate limit exceeded for installation" "/x" "" "",
         St.mk (LRU.new 128)
           [Ev.req "/x" (pageParams [] 1), Ev.sleep 2, Ev.req "/x" (pageParams [] 1)]) :=
  ⟨c3_rate_limit_retry_once.1 tr403 (St.mk (LRU.new 128) []) "/x" [] 1
     "403: API rate limit exceeded for installation" "/x" "" ""
     (St.mk (LRU.new 128) [Ev.req "/x" (pageParams [] 1)]) rfl rfl,
   c3_rate_limit_retry_once.2.2 tr403 (St.mk (LRU.new 128) [])
     (St.mk (LRU.new 128)
       [Ev.req "/x" (pageParams [] 1), Ev.sleep 2, Ev.req "/x" (pageParams [] 1)])
     "/x" [] 0 4 1 [] "403: API rate limit exceeded for installation" "/x" "" "" rfl⟩

/-- C4: an empty extracted collection -- a bare list payload that is
empty, or a dict payload whose items field is falsy, the two shapes whose
extraction stops the loop -- terminates it as a normal success carrying
the items accumulated so far, never a failure; concretely a non-empty
first page followed by an empty second page yields exactly the first
page's items. -/
theorem c4_empty_page_is_normal_end :
    (∀ (tr : Tr) (st st1 : St) (path : String) (params : List (String × PVal))
       (sleep_s r page : Nat) (acc : List Json) (res : GetResult),
       fetchPage tr st path params page = (res, st1) → res.isErr = false →
       (res.dataOf = Json.arr []
        ∨ ∃ fs, res.dataOf = Json.obj fs
            ∧ jsonFalsy (jsonGetD fs "items" (Json.arr [])) = true) →
       getAllAux tr path params sleep_s (Nat.succ r) page acc st
         = (GetAllResult.success acc, st1))
    ∧ (_get_all trEmptySecond "/x" [] 5 0 (St.mk (LRU.new 128) [])).1
        = GetAllResult.success [Json.str "i1"]
    ∧ (_get_all trEmptySecond "/x" [] 5 0 (St.mk (LRU.new 128) [])).2.events
        = [Ev.req "/x" (pageParams [] 1), Ev.req "/x" (pageParams [] 2)] := by
  refine ⟨?_, rfl, rfl⟩
  intro tr st st1 path params sleep_s r page acc res h hne hempty
  have hstop : pageItems res.dataOf = PageStep.stop := by
    rcases hempty with hd | ⟨fs, hd, hfal⟩
    · rw [hd]; rfl
    · rw [hd]
      simp only [pageItems, hfal, if_true]
  exact getAllAux_stop tr path params sleep_s r page acc st st1 res h hne hstop

/-- Witness for c4: a dict payload whose items field is the empty list
ends the loop at once as a success with the prior accumulator. -/
theorem c4_empty_page_is_normal_end_witness :
    getAllAux trEmptyItems "/x" [] 0 (Nat.succ 4) 1 [] (St.mk (LRU.new 128) [])
      = (GetAllResult.success [],
         St.mk ((LRU.new 128).set (cacheKey "/x" (pageParams [] 1))
             (Json.obj [("items", Json.arr [])]))
           [Ev.req "/x" (pageParams [] 1)]) :=
  c4_empty_page_is_normal_end.1 trEmptyItems (St.mk (LRU.new 128) [])
    (St.mk ((LRU.new 128).set (cacheKey "/x" (pageParams [] 1))
        (Json.obj [("items", Json.arr [])]))
      [Ev.req "/x" (pageParams [] 1)])
    "/x" [] 0 4 1 [] (GetResult.fresh (Json.obj [("items", Json.arr [])]) "" "") rfl rfl
    (Or.inr ⟨[("items", Json.arr [])], rfl, rfl⟩)

/-- C9: a result served from the cache carries no link field, so its link
string is empty; hence a page whose fetch is a cache hit appends its items
and terminates the loop without advancing; concretely, re-running the
paginator after a two-page run stops at page one (a cache hit) with only
that page's items and no network traffic, although the cached page's
original response had announced a next page. -/
theorem c9_cache_hit_page_ends_loop :
    (∀ d : Json, (GetResult.cached d).linkStr = "")
    ∧ (∀ (tr : Tr) (st st1 : St) (path : String) (params : List (String × PVal))
         (sleep_s r page : Nat) (acc : List Json) (d : Json) (l : List Json),
         fetchPage tr st path params page = (GetResult.cached d, st1) →
         pageItems d = PageStep.items l →
         getAllAux tr path params sleep_s (Nat.succ r) page acc st
           = (GetAllResult.success (acc ++ l), st1))
    ∧ ((_get_all trTwoPages "/x" [] 5 0 (St.mk (LRU.new 128) [])).1
         = GetAllResult.success [Json.num 1, Json.num 2]
      ∧ (_get_all trTwoPages "/x" [] 5 0
           ((_get_all trTwoPages "/x" [] 5 0 (St.mk (LRU.new 128) [])).2)).1
         = GetAllResult.success [Json.num 1]
      ∧ (_get_all trTwoPages "/x" [] 5 0
           ((_get_all trTwoPages "/x" [] 5 0 (St.mk (LRU.new 128) [])).2)).2.events
         = (_get_all trTwoPages "/x" [] 5 0 (St.mk (LRU.new 128) [])).2.events) := by
  refine ⟨fun d => rfl, ?_, rfl, rfl, rfl⟩
  intro tr st st1 path params sleep_s r page acc d l h hitems
  exact getAllAux_last tr path params sleep_s r page acc st st1 (GetResult.cached d) l
    h rfl hitems rfl

/-- Witness for c9: a store whose page-one key holds a cached list makes
the loop return that list at once. -/
theorem c9_cache_hit_page_ends_loop_witness :
    getAllAux trTwoPages "/x" [] 0 (Nat.succ 4) 1 []
      (St.mk (LRU.mk 128 [(cacheKey "/x" (pageParams [] 1), Json.arr [Json.num 9])]) [])
      = (GetAllResult.success ([] ++ [Json.num 9]),
         St.mk (LRU.mk 128 [(cacheKey "/x" (pageParams [] 1), Json.arr [Json.num 9])]) []) :=
  c9_cache_hit_page_ends_loop.2.1 trTwoPages
    (St.mk (LRU.mk 128 [(cacheKey "/x" (pageParams [] 1), Json.arr [Json.num 9])]) [])
    (St.mk (LRU.mk 128 [(cacheKey "/x" (pageParams [] 1), Json.arr [Json.num 9])]) [])
    "/x" [] 0 4 1 [] (Json.arr [Json.num 9]) [Json.num 9] rfl rfl

/-- C8: a failing page makes the paginator return exactly that failure
value whatever items were accumulated (no partial result is mixed in),
with the state exactly as the failing fetch left it; and the cache entries
written by earlier successful pages of the run are kept: after a good
first page and a 500 on the second, the result is the bare failure dict
while the first page's payload is still cached. -/
theorem c8_failure_exact_and_cache_kept :
    (∀ (tr : Tr) (st st1 : St) (path : String) (params : List (String × PVal))
       (sleep_s r page : Nat) (e p a b : String),
       fetchPage tr st path params page = (GetResult.failure e p a b, st1) →
       ∀ acc : List Json,
         getAllAux tr path params sleep_s (Nat.succ r) page acc st
           = (GetAllResult.failure e p a b, st1))
    ∧ ((_get_all trFailSecond "/x" [] 5 0 (St.mk (LRU.new 128) [])).1
        = GetAllResult.failure "500: boom" "/x" "" ""
      ∧ (_get_all trFailSecond "/x" [] 5 0 (St.mk (LRU.new 128) [])).2.cache.lookup
          (cacheKey "/x" (pageParams [] 1)) = some (Json.arr [Json.num 1])) := by
  refine ⟨?_, rfl, rfl⟩
  intro tr st st1 path params sleep_s r page e p a b h acc
  exact getAllAux_fail tr path params sleep_s r page acc st st1 e p a b h

/-- Witness for c8: the failure of a 500 transport is returned unchanged
even when the accumulator already holds an item. -/
theorem c8_failure_exact_and_cache_kept_witness :
    getAllAux tr500 "/x" [] 0 (Nat.succ 2) 1 [Json.num 42] (St.mk (LRU.new 128) [])
      = (GetAllResult.failure "500: boom" "/x" "rem" "reset",
         St.mk (LRU.new 128) [Ev.req "/x" (pageParams [] 1)]) :=
  c8_failure_exact_and_cache_kept.1 tr500 (St.mk (LRU.new 128) [])
    (St.mk (LRU.new 128) [Ev.req "/x" (pageParams [] 1)])
    "/x" [] 0 2 1 "500: boom" "/x" "rem" "reset" rfl [Json.num 42]

/-! Development for claim C5: every request the paginator issues carries a
page number in range, and the budget bounds the loop. -/

/-- Plain association lookup on a parameter mapping. -/
def paramLookup (ps : List (String × PVal)) (k : String) : Option PVal :=
  (ps.find? (fun p => p.1 == k)).map (fun p => p.2)

theorem find?_map_update (ps : List (String × PVal)) (k : String) (v : PVal)
    (h : ps.any (fun p => p.1 == k) = true) :
    (ps.map (fun p => if p.1 == k then (k, v) else p)).find? (fun p => p.1 == k)
      = some (k, v) := by
  induction ps with
  | nil => simp at h
  | cons q t ih =>
    rw [List.map_cons]
    cases hq : (q.1 == k) with
    | true =>
      rw [if_pos (rfl : true = true), List.find?_cons]
      simp
    | false =>
      rw [if_neg (by simp [hq]), List.find?_cons, hq]
      have ht : t.any (fun p => p.1 == k) = true := by
        rw [List.any_cons, hq] at h
        simpa using h
      exact ih ht

theorem find?_update_append (ps : List (String × PVal)) (k : String) (v : PVal)
    (h : ps.any (fun p => p.1 == k) = false) :
    (ps ++ [(k, v)]).find? (fun p => p.1 == k) = some (k, v) := by
  rw [List.find?_append]
  have hnone : ps.find? (fun p => p.1 == k) = none := by
    rw [List.find?_eq_none]
    intro x hx
    have hfalse := List.any_eq_false.mp h x hx
    simp [hfalse]
  rw [hnone]
  simp

theorem paramLookup_updateParam (ps : List (String × PVal)) (k : String) (v : PVal) :
    paramLookup (updateParam ps k v) k = some v := by
  unfold paramLookup updateParam
  cases h : ps.any (fun p => p.1 == k) with
  | true => rw [if_pos (rfl : true = true), find?_map_update ps k v h]; rfl
  | false => rw [if_neg (by simp), find?_update_append ps k v h]; rfl

/-- The merged dict handed to the fetch always carries the page counter. -/
theorem paramLookup_pageParams (params : List (String × PVal)) (page : Nat) :
    paramLookup (pageParams params page) "page" = some (PVal.int (Int.ofNat page)) :=
  paramLookup_updateParam params "page" (PVal.int (Int.ofNat page))

/-- A single fetch appends at most its own request to the event log. -/
theorem get_events_exists (tr : Tr) (st : St) (path : String) (params : List (String × PVal))
    (uc : Bool) :
    ∃ t : List Ev, (_get tr st path params uc).2.events = st.events ++ t
      ∧ ∀ ev ∈ t, ev = Ev.req path params := by
  unfold _get
  cases uc with
  | false =>
    simp only [Bool.false_eq_true, if_false]
    exact ⟨[Ev.req path params],
      (netFetch_shape tr st path params false (cacheKey path params)).1, by simp⟩
  | true =>
    cases hn : (st.cache.get (cacheKey path params)).2.isNull with
    | true =>
      simp only [if_true, hn]
      exact ⟨[Ev.req path params],
        (netFetch_shape tr (St.mk (st.cache.get (cacheKey path params)).1 st.events)
          path params true (cacheKey path params)).1, by simp⟩
    | false =>
      simp only [if_true, hn]
      exact ⟨[], by simp, by simp⟩

/-- A page fetch appends only its own requests and the backoff sleep. -/
theorem fetchPage_events (tr : Tr) (st : St) (path : String) (params : List (String × PVal))
    (page : Nat) :
    ∃ t : List Ev, (fetchPage tr st path params page).2.events = st.events ++ t
      ∧ ∀ ev ∈ t, ev = Ev.req path (pageParams params page) ∨ ev = Ev.sleep 2 := by
  unfold fetchPage
  cases hg : _get tr st path (pageParams params page) true with
  | mk res1 st1 =>
    obtain ⟨t0, ht0, ht0m⟩ := get_events_exists tr st path (pageParams params page) true
    rw [hg] at ht0
    have ht0e : st1.events = st.events ++ t0 := ht0
    cases res1 with
    | cached d => exact ⟨t0, ht0e, fun ev hev => Or.inl (ht0m ev hev)⟩
    | fresh d l0 r0 => exact ⟨t0, ht0e, fun ev hev => Or.inl (ht0m ev hev)⟩
    | failure e p a b =>
      cases hrl : isRateLimited e with
      | false =>
        simp only [hrl, Bool.false_eq_true, if_false]
        exact ⟨t0, ht0e, fun ev hev => Or.inl (ht0m ev hev)⟩
      | true =>
        simp only [hrl, if_true]
        obtain ⟨t1, ht1, ht1m⟩ := get_events_exists tr
          (St.mk st1.cache (st1.events ++ [Ev.sleep 2])) path (pageParams params page) true
        refine ⟨t0 ++ [Ev.sleep 2] ++ t1, ?_, ?_⟩
        · rw [ht1]
          show st1.events ++ [Ev.sleep 2] ++ t1 = _
          rw [ht0e]
          simp [List.append_assoc]
        · intro ev hev
          rcases List.mem_append.mp hev with hev1 | hev1
          · rcases List.mem_append.mp hev1 with hev2 | hev2
            · exact Or.inl (ht0m ev hev2)
            · simp at hev2
              exact Or.inr hev2
          · exact Or.inl (ht1m ev hev1)

/-- Every event added by the loop is a sleep or a request whose page number
lies between the starting page and the page budget. -/
theorem getAllAux_events (tr : Tr) (path : String) (params : List (String × PVal))
    (sleep_s : Nat) :
    ∀ (r page : Nat) (acc : List Json) (st : St),
      ∃ t : List Ev,
        (getAllAux tr path params sleep_s r page acc st).2.events = st.events ++ t
        ∧ ∀ ev ∈ t, (∃ s, ev = Ev.sleep s)
            ∨ ∃ q : Nat, page ≤ q ∧ q < page + r ∧ ev = Ev.req path (pageParams params q) := by
  intro r
  induction r with
  | zero =>
    intro page acc st
    exact ⟨[], by simp [getAllAux], by simp⟩
  | succ r ih =>
    intro page acc st
    obtain ⟨t0, ht0, ht0m⟩ := fetchPage_events tr st path params page
    cases hfp : fetchPage tr st path params page with
    | mk res st1 =>
    rw [hfp] at ht0
    have ht0e : st1.events = st.events ++ t0 := ht0
    have hmemo : ∀ ev ∈ t0, (∃ s, ev = Ev.sleep s)
        ∨ ∃ q : Nat, page ≤ q ∧ q < page + (r + 1)
            ∧ ev = Ev.req path (pageParams params q) := by
      intro ev hev
      rcases ht0m ev hev with h | h
      · exact Or.inr ⟨page, Nat.le_refl page, by omega, h⟩
      · exact Or.inl ⟨2, h⟩
    cases hne : res.isErr with
    | true =>
      cases res with
      | failure e p a b =>
        rw [getAllAux_fail tr path params sleep_s r page acc st st1 e p a b hfp]
        exact ⟨t0, ht0e, hmemo⟩
      | cached d => simp [GetResult.isErr] at hne
      | fresh d l0 r0 => simp [GetResult.isErr] at hne
    | false =>
      cases hit : pageItems res.dataOf with
      | stop =>
        rw [getAllAux_stop tr path params sleep_s r page acc st st1 res hfp hne hit]
        exact ⟨t0, ht0e, hmemo⟩
      | crash =>
        rw [getAllAux_crash tr path params sleep_s r page acc st st1 res hfp hne hit]
        exact ⟨t0, ht0e, hmemo⟩
      | items l =>
        cases hlink : strContains res.linkStr "rel=\"next\"" with
        | false =>
          rw [getAllAux_last tr path params sleep_s r page acc st st1 res l hfp hne hit hlink]
          exact ⟨t0, ht0e, hmemo⟩
        | true =>
          rw [getAllAux_cont tr path params sleep_s r page acc st st1 res l hfp hne hit hlink]
          obtain ⟨t1, ht1, ht1m⟩ := ih (page + 1) (acc ++ l)
            (if sleep_s ≠ 0 then St.mk st1.cache (st1.events ++ [Ev.sleep sleep_s]) else st1)
          have hmem1 : ∀ ev ∈ t1, (∃ s, ev = Ev.sleep s)
              ∨ ∃ q : Nat, page ≤ q ∧ q < page + (r + 1)
                  ∧ ev = Ev.req path (pageParams params q) := by
            intro ev hev
            rcases ht1m ev hev with h | ⟨q, hq1, hq2, hq3⟩
            · exact Or.inl h
            · exact Or.inr ⟨q, by omega, by omega, hq3⟩
          by_cases hs : sleep_s ≠ 0
          · rw [if_pos hs]
            rw [if_pos hs] at ht1
            refine ⟨t0 ++ [Ev.sleep sleep_s] ++ t1, ?_, ?_⟩
            · rw [ht1]
              show (st1.events ++ [Ev.sleep sleep_s]) ++ t1 = _
              rw [ht0e]
              simp [List.append_assoc]
            · intro ev hev
              rcases List.mem_append.mp hev with hev1 | hev1
              · rcases List.mem_append.mp hev1 with hev2 | hev2
                · exact hmemo ev hev2
                · simp at hev2
                  exact Or.inl ⟨sleep_s, hev2⟩
              · exact hmem1 ev hev1
          · rw [if_neg hs]
            rw [if_neg hs] at ht1
            refine ⟨t0 ++ t1, ?_, ?_⟩
            · rw [ht1, ht0e, List.append_assoc]
            · intro ev hev
              rcases List.mem_append.mp hev with hev1 | hev1
              · exact hmemo ev hev1
              · exact hmem1 ev hev1

/-- C5: the paginator is a loop on a structurally decreasing page budget,
so it terminates for every max_pages; an exhausted budget returns the
accumulated items as a silent success whatever the continuation state;
every network request it issues carries the page parameter, with a page
number between 1 and max_pages; and concretely a budget of 2 against a
transport that always announces further pages stops after exactly two
requests with a success. -/
theorem c5_max_pages_ceiling :
    (∀ (tr : Tr) (path : String) (params : List (String × PVal)) (sleep_s page : Nat)
       (acc : List Json) (st : St),
       getAllAux tr path params sleep_s 0 page acc st = (GetAllResult.success acc, st))
    ∧ (∀ (params : List (String × PVal)) (q : Nat),
        paramLookup (pageParams params q) "page" = some (PVal.int (Int.ofNat q)))
    ∧ (∀ (tr : Tr) (path : String) (params : List (String × PVal))
         (max_pages sleep_s : Nat) (st : St),
        ∃ t : List Ev,
          (_get_all tr path params max_pages sleep_s st).2.events = st.events ++ t
          ∧ ∀ ev ∈ t, (∃ s, ev = Ev.sleep s)
              ∨ ∃ q : Nat, 1 ≤ q ∧ q ≤ max_pages ∧ ev = Ev.req path (pageParams params q))
    ∧ ((_get_all trAlwaysMore "/x" [] 2 0 (St.mk (LRU.new 128) [])).1
        = GetAllResult.success [Json.num 1, Json.num 1]
      ∧ (_get_all trAlwaysMore "/x" [] 2 0 (St.mk (LRU.new 128) [])).2.events
        = [Ev.req "/x" (pageParams [] 1), Ev.req "/x" (pageParams [] 2)]) := by
  refine ⟨fun tr path params sleep_s page acc st => rfl, paramLookup_pageParams, ?_, rfl, rfl⟩
  intro tr path params max_pages sleep_s st
  obtain ⟨t, ht, htm⟩ := getAllAux_events tr path params sleep_s max_pages 1 [] st
  refine ⟨t, ht, fun ev hev => ?_⟩
  rcases htm ev hev with h | ⟨q, hq1, hq2, hq3⟩
  · exact Or.inl h
  · exact Or.inr ⟨q, hq1, by omega, hq3⟩

/-- Witness for c5: an exhausted budget returns the accumulator untouched,
and the page-range conjunct evaluated at page 7. -/
theorem c5_max_pages_ceiling_witness :
    getAllAux trAlwaysMore "/x" [] 0 0 7 [Json.num 3] (St.mk (LRU.new 128) [])
      = (GetAllResult.success [Json.num 3], St.mk (LRU.new 128) [])
    ∧ paramLookup (pageParams [] 7) "page" = some (PVal.int (Int.ofNat 7)) :=
  ⟨c5_max_pages_ceiling.1 trAlwaysMore "/x" [] 0 7 [Json.num 3] (St.mk (LRU.new 128) []),
   c5_max_pages_ceiling.2.1 [] 7⟩

/-! Development for claim C6. First the code-point order underlying the
key sort: totality, transitivity, antisymmetry. -/

theorem char_eq_of_toNat_eq (a b : Char) (h : a.toNat = b.toNat) : a = b := by
  apply Char.eq_of_val_eq
  exact UInt32.eq_of_val_eq (Fin.eq_of_val_eq h)

theorem listLE_total (a : List Char) : ∀ b, listLE a b = true ∨ listLE b a = true := by
  induction a with
  | nil => intro b; exact Or.inl rfl
  | cons x xs ih =>
    intro b
    cases b with
    | nil => exact Or.inr rfl
    | cons y ys =>
      by_cases h1 : x.toNat < y.toNat
      · simp [listLE, h1]
      · by_cases h2 : y.toNat < x.toNat
        · simp [listLE, h1, h2]
        · have hxy : x = y := char_eq_of_toNat_eq x y (by omega)
          subst hxy
          simp only [listLE, h1, if_neg h1]
          exact ih ys

theorem listLE_trans (a : List Char) : ∀ b c, listLE a b = true → listLE b c = true →
    listLE a c = true := by
  induction a with
  | nil => intro b c _ _; rfl
  | cons x xs ih =>
    intro b c hab hbc
    cases b with
    | nil => simp [listLE] at hab
    | cons y ys =>
      cases c with
      | nil => simp [listLE] at hbc
      | cons z zs =>
        by_cases hxy : x.toNat < y.toNat
        · by_cases hyz : y.toNat < z.toNat
          · simp [listLE, show x.toNat < z.toNat by omega]
          · by_cases hzy : z.toNat < y.toNat
            · simp [listLE, hyz, hzy] at hbc
            · have h : y = z := char_eq_of_toNat_eq y z (by omega)
              subst h
              simp [listLE, hxy]
        · by_cases hyx : y.toNat < x.toNat
          · simp [listLE, hxy, hyx] at hab
          · have h : x = y := char_eq_of_toNat_eq x y (by omega)
            subst h
            simp only [listLE, if_neg hxy] at hab
            by_cases hxz : x.toNat < z.toNat
            · simp [listLE, hxz]
            · by_cases hzx : z.toNat < x.toNat
              · simp [listLE, hxz, hzx] at hbc
              · have h2 : x = z := char_eq_of_toNat_eq x z (by omega)
                subst h2
                simp only [listLE, if_neg hxz] at hbc ⊢
                exact ih ys zs hab hbc

theorem listLE_antisymm (a : List Char) : ∀ b, listLE a b = true → listLE b a = true →
    a = b := by
  induction a with
  | nil =>
    intro b hab hba
    cases b with
    | nil => rfl
    | cons y ys => simp [listLE] at hba
  | cons x xs ih =>
    intro b hab hba
    cases b with
    | nil => simp [listLE] at hab
    | cons y ys =>
      by_cases hxy : x.toNat < y.toNat
      · simp [listLE, hxy, show ¬ y.toNat < x.toNat by omega] at hba
      · by_cases hyx : y.toNat < x.toNat
        · simp [listLE, hxy, hyx] at hab
        · have h : x = y := char_eq_of_toNat_eq x y (by omega)
          subst h
          simp only [listLE, if_neg hxy] at hab hba
          rw [ih ys hab hba]

theorem string_data_inj (a b : String) (h : a.data = b.data) : a = b := by
  cases a
  cases b
  cases h
  rfl

theorem strLE_total (a b : String) : strLE a b = true ∨ strLE b a = true :=
  listLE_total a.data b.data

theorem strLE_trans (a b c : String) (h1 : strLE a b = true) (h2 : strLE b c = true) :
    strLE a c = true :=
  listLE_trans a.data b.data c.data h1 h2

theorem strLE_antisymm (a b : String) (h1 : strLE a b = true) (h2 : strLE b a = true) :
    a = b :=
  string_data_inj a b (listLE_antisymm a.data b.data h1 h2)

/-- The sort order on entries, on keys only. -/
def keyLE (a b : String × PVal) : Prop := strLE a.1 b.1 = true

/-- The strict order that holds between consecutive entries of a sorted
list with distinct keys. -/
def keyLT (a b : String × PVal) : Prop := strLE a.1 b.1 = true ∧ a.1 ≠ b.1

instance : IsAntisymm (String × PVal) keyLT :=
  ⟨fun a b h1 h2 => absurd (strLE_antisymm a.1 b.1 h1.1 h2.1) h1.2⟩

theorem insertByKey_perm (p : String × PVal) (l : List (String × PVal)) :
    (insertByKey p l).Perm (p :: l) := by
  induction l with
  | nil => exact List.Perm.refl _
  | cons q rest ih =>
    unfold insertByKey
    split
    · exact List.Perm.refl _
    · exact (List.Perm.cons q ih).trans (List.Perm.swap p q rest)

theorem sortByKey_perm (l : List (String × PVal)) : (sortByKey l).Perm l := by
  induction l with
  | nil => exact List.Perm.refl _
  | cons p rest ih =>
    unfold sortByKey
    exact (insertByKey_perm p (sortByKey rest)).trans (List.Perm.cons p ih)

theorem insertByKey_pairwise (p : String × PVal) (l : List (String × PVal))
    (h : l.Pairwise keyLE) : (insertByKey p l).Pairwise keyLE := by
  induction l with
  | nil => simp [insertByKey, keyLE]
  | cons q rest ih =>
    rw [List.pairwise_cons] at h
    unfold insertByKey
    split
    next hle =>
      rw [List.pairwise_cons]
      refine ⟨?_, by rw [List.pairwise_cons]; exact h⟩
      intro x hx
      rcases List.mem_cons.mp hx with h1 | h1
      · rw [h1]; exact hle
      · exact strLE_trans p.1 q.1 x.1 hle (h.1 x h1)
    next hgt =>
      rw [List.pairwise_cons]
      refine ⟨?_, ih h.2⟩
      intro x hx
      have hmem := (insertByKey_perm p rest).mem_iff.mp hx
      rcases List.mem_cons.mp hmem with h1 | h1
      · rw [h1]
        rcases strLE_total q.1 p.1 with h2 | h2
        · exact h2
        · exact absurd h2 hgt
      · exact h.1 x h1

theorem sortByKey_pairwise (l : List (String × PVal)) : (sortByKey l).Pairwise keyLE := by
  induction l with
  | nil => exact List.Pairwise.nil
  | cons p rest ih => exact insertByKey_pairwise p (sortByKey rest) ih

theorem pairwise_keyLT_of_nodup (l : List (String × PVal))
    (hnd : (l.map Prod.fst).Nodup) (hle : l.Pairwise keyLE) : l.Pairwise keyLT := by
  have hne : l.Pairwise (fun a b => a.1 ≠ b.1) := by
    unfold List.Nodup at hnd
    rw [List.pairwise_map] at hnd
    exact hnd
  exact hle.and hne

/-- Two parameter mappings with distinct keys that are permutations of one
another sort to the same list. -/
theorem sortByKey_eq_of_perm (m1 m2 : List (String × PVal))
    (hnd1 : (m1.map Prod.fst).Nodup) (hp : m1.Perm m2) :
    sortByKey m1 = sortByKey m2 := by
  have hperm : (sortByKey m1).Perm (sortByKey m2) :=
    ((sortByKey_perm m1).trans hp).trans (sortByKey_perm m2).symm
  have hnd2 : (m2.map Prod.fst).Nodup := ((hp.map Prod.fst).nodup_iff).mp hnd1
  have hnd1s : ((sortByKey m1).map Prod.fst).Nodup :=
    (((sortByKey_perm m1).map Prod.fst).nodup_iff).mpr hnd1
  have hnd2s : ((sortByKey m2).map Prod.fst).Nodup :=
    (((sortByKey_perm m2).map Prod.fst).nodup_iff).mpr hnd2
  exact List.eq_of_perm_of_sorted hperm
    (pairwise_keyLT_of_nodup _ hnd1s (sortByKey_pairwise m1))
    (pairwise_keyLT_of_nodup _ hnd2s (sortByKey_pairwise m2))

/-! A decoder for the serialization of cacheKey, used only to prove the
serialization injective: decoding the emitted characters recovers the
sorted parameter list. -/

def hexVal (c : Char) : Option Nat :=
  if 48 ≤ c.toNat ∧ c.toNat ≤ 57 then some (c.toNat - 48)
  else if 97 ≤ c.toNat ∧ c.toNat ≤ 102 then some (c.toNat - 87)
  else none

def readHex4 : List Char → Option (Nat × List Char)
  | c1 :: c2 :: c3 :: c4 :: rest =>
    match hexVal c1, hexVal c2, hexVal c3, hexVal c4 with
    | some a, some b, some c, some d => some (4096 * a + 256 * b + 16 * c + d, rest)
    | _, _, _, _ => none
  | _ => none

/-- Decode the low half of a surrogate pair following a high half n. -/
def decodeUPair (n : Nat) (rest4 : List Char) : Option (Char × List Char) :=
  match readHex4 rest4 with
  | none => none
  | some p =>
    if 56320 ≤ p.1 ∧ p.1 ≤ 57343 then
      some (Char.ofNat (65536 + (n - 55296) * 1024 + (p.1 - 56320)), p.2)
    else none

/-- Decode what follows four hex digits of value n: either the low
surrogate or the character n itself. -/
def decodeUCont (n : Nat) (rest3 : List Char) : Option (Char × List Char) :=
  if 55296 ≤ n ∧ n ≤ 56319 then
    match rest3 with
    | c1 :: c2 :: rest4 => if c1 = '\\' ∧ c2 = 'u' then decodeUPair n rest4 else none
    | _ => none
  else some (Char.ofNat n, rest3)

/-- Decode a u-escape payload: four hex digits, or a surrogate pair. -/
def decodeU (rest2 : List Char) : Option (Char × List Char) :=
  match readHex4 rest2 with
  | none => none
  | some p => decodeUCont p.1 p.2

/-- Decode the character named by a backslash escape. -/
def decodeEsc (e : Char) (rest2 : List Char) : Option (Char × List Char) :=
  if e = '\\' then some ('\\', rest2)
  else if e = '"' then some ('"', rest2)
  else if e = 'b' then some (Char.ofNat 8, rest2)
  else if e = 't' then some (Char.ofNat 9, rest2)
  else if e = 'n' then some (Char.ofNat 10, rest2)
  else if e = 'f' then some (Char.ofNat 12, rest2)
  else if e = 'r' then some (Char.ofNat 13, rest2)
  else if e = 'u' then decodeU rest2
  else none

/-- Decode one serialized character (never the closing quote). -/
def decodeOne : List Char → Option (Char × List Char)
  | [] => none
  | c :: rest =>
    if c = '"' then none
    else if c = '\\' then
      match rest with
      | [] => none
      | e :: rest2 => decodeEsc e rest2
    else some (c, rest)

theorem decodeOne_cons (c : Char) (rest : List Char) :
    decodeOne (c :: rest)
      = if c = '"' then none
        else if c = '\\' then
          match rest with
          | [] => none
          | e :: rest2 => decodeEsc e rest2
        else some (c, rest) := rfl

/-- Decode the escaped body of a JSON string literal up to its closing
quote; fuel bounds the number of decoded characters. -/
def unescAux : Nat → List Char → Option (List Char × List Char)
  | _, [] => none
  | 0, _ :: _ => none
  | Nat.succ fuel, c :: rest =>
    if c = '"' then some ([], rest)
    else
      match decodeOne (c :: rest) with
      | some p => Option.map (fun pr => (p.1 :: pr.1, pr.2)) (unescAux fuel p.2)
      | none => none

def digitVal (c : Char) : Option Nat :=
  if 48 ≤ c.toNat ∧ c.toNat ≤ 57 then some (c.toNat - 48) else none

def parseDigits : Nat → List Char → Nat × List Char
  | acc, [] => (acc, [])
  | acc, c :: rest =>
    match digitVal c with
    | some d => parseDigits (10 * acc + d) rest
    | none => (acc, c :: rest)

/-- The following characters do not continue a decimal literal. -/
def headNonDigit : List Char → Prop
  | [] => True
  | c :: _ => digitVal c = none

def parseVal (fuel : Nat) (l : List Char) : Option (PVal × List Char) :=
  match l with
  | [] => none
  | c :: rest =>
    if c = '"' then
      Option.map (fun pr => (PVal.str (String.mk pr.1), pr.2)) (unescAux fuel rest)
    else if c = '-' then
      match rest with
      | [] => none
      | d :: _ =>
        match digitVal d with
        | some _ => some (PVal.int (-(Int.ofNat (parseDigits 0 rest).1)), (parseDigits 0 rest).2)
        | none => none
    else
      match digitVal c with
      | some _ =>
        some (PVal.int (Int.ofNat (parseDigits 0 (c :: rest)).1), (parseDigits 0 (c :: rest)).2)
      | none => none

def parseEntry (fuel : Nat) (l : List Char) : Option ((String × PVal) × List Char) :=
  match l with
  | '"' :: rest =>
    match unescAux fuel rest with
    | some (kchars, rest1) =>
      match rest1 with
      | ':' :: ' ' :: rest2 =>
        Option.map (fun pr => ((String.mk kchars, pr.1), pr.2)) (parseVal fuel rest2)
      | _ => none
    | none => none
  | _ => none

/-- Parse the continuation of an entry list: a closing brace, or a comma,
a space and a further entry. -/
def parseEntriesAux : Nat → List Char → Option (List (String × PVal) × List Char)
  | _, [] => none
  | 0, _ :: _ => none
  | Nat.succ fuel, c :: rest =>
    if c = '\x7d' then some ([], rest)
    else if c = ',' then
      match rest with
      | ' ' :: rest2 =>
        match parseEntry fuel rest2 with
        | some (e, rest3) =>
          Option.map (fun pr => (e :: pr.1, pr.2)) (parseEntriesAux fuel rest3)
        | none => none
      | _ => none
    else none

def parseObjChars (fuel : Nat) (l : List Char) : Option (List (String × PVal) × List Char) :=
  match l with
  | '\x7b' :: rest =>
    match rest with
    | '\x7d' :: rest2 => some ([], rest2)
    | _ =>
      match parseEntry fuel rest with
      | some (e, rest2) => Option.map (fun pr => (e :: pr.1, pr.2)) (parseEntriesAux fuel rest2)
      | none => none
  | _ => none

/-- The serialization of the entries after the first: comma, space, entry,
repeated. -/
def contChars : List (String × PVal) → List Char
  | [] => []
  | e :: rest => ',' :: ' ' :: (entryChars e ++ contChars rest)

/-- Length of the string payload of a value (the decoder fuel it needs). -/
def pvalStrLen : PVal → Nat
  | PVal.str s => s.data.length
  | PVal.int _ => 0

def entrySize (e : String × PVal) : Nat := e.1.data.length + pvalStrLen e.2 + 1

def entriesSize : List (String × PVal) → Nat
  | [] => 0
  | e :: rest => entrySize e + entriesSize rest + 1

theorem isValidChar_of_lt (n : Nat) (h : n < 55296) : n.isValidChar := Or.inl h

theorem char_toNat_ofNat (n : Nat) (h : n.isValidChar) : (Char.ofNat n).toNat = n := by
  unfold Char.ofNat
  rw [dif_pos h]
  rfl

theorem hexVal_hexDigitChar (n : Nat) (h : n < 16) :
    hexVal (hexDigitChar n) = some n := by
  unfold hexVal hexDigitChar
  by_cases h10 : n < 10
  · rw [if_pos h10]
    have ht : (Char.ofNat (48 + n)).toNat = 48 + n :=
      char_toNat_ofNat (48 + n) (isValidChar_of_lt _ (by omega))
    rw [if_pos (by omega)]
    rw [ht]
    congr 1
    omega
  · rw [if_neg h10]
    have ht : (Char.ofNat (87 + n)).toNat = 87 + n :=
      char_toNat_ofNat (87 + n) (isValidChar_of_lt _ (by omega))
    rw [if_neg (by rw [ht]; omega), if_pos (by rw [ht]; omega)]
    rw [ht]
    congr 1
    omega

theorem readHex4_hex4 (n : Nat) (h : n < 65536) (rest : List Char) :
    readHex4 (hex4 n ++ rest) = some (n, rest) := by
  have e1 := hexVal_hexDigitChar (n / 4096 % 16) (by omega)
  have e2 := hexVal_hexDigitChar (n / 256 % 16) (by omega)
  have e3 := hexVal_hexDigitChar (n / 16 % 16) (by omega)
  have e4 := hexVal_hexDigitChar (n % 16) (by omega)
  simp only [hex4, List.cons_append, List.nil_append, readHex4, e1, e2, e3, e4]
  congr 1
  have harith : 4096 * (n / 4096 % 16) + 256 * (n / 256 % 16) + 16 * (n / 16 % 16) + n % 16
      = n := by omega
  rw [harith]

theorem decodeU_bmp (n : Nat) (tail : List Char) (hn16 : n < 65536)
    (hsur : ¬ (55296 ≤ n ∧ n ≤ 56319)) :
    decodeU (hex4 n ++ tail) = some (Char.ofNat n, tail) := by
  unfold decodeU
  rw [readHex4_hex4 n hn16 tail]
  show decodeUCont n tail = some (Char.ofNat n, tail)
  unfold decodeUCont
  rw [if_neg hsur]

theorem decodeU_pair (n m : Nat) (tail : List Char) (hn16 : n < 65536) (hm16 : m < 65536)
    (hn : 55296 ≤ n ∧ n ≤ 56319) (hm : 56320 ≤ m ∧ m ≤ 57343) :
    decodeU (hex4 n ++ ('\\' :: 'u' :: (hex4 m ++ tail)))
      = some (Char.ofNat (65536 + (n - 55296) * 1024 + (m - 56320)), tail) := by
  unfold decodeU
  rw [readHex4_hex4 n hn16]
  show decodeUCont n ('\\' :: 'u' :: (hex4 m ++ tail)) = _
  unfold decodeUCont
  rw [if_pos hn]
  show (if ('\\' : Char) = '\\' ∧ ('u' : Char) = 'u'
        then decodeUPair n (hex4 m ++ tail) else none) = _
  rw [if_pos ⟨rfl, rfl⟩]
  unfold decodeUPair
  rw [readHex4_hex4 m hm16]
  show (if 56320 ≤ m ∧ m ≤ 57343
        then some (Char.ofNat (65536 + (n - 55296) * 1024 + (m - 56320)), tail)
        else none) = _
  rw [if_pos hm]

theorem decodeOne_escChar (c : Char) (tail : List Char) :
    decodeOne (escChar c ++ tail) = some (c, tail) := by
  unfold escChar
  by_cases h1 : c = '\\'
  · rw [if_pos h1, h1]
    rfl
  · rw [if_neg h1]
    by_cases h2 : c = '"'
    · rw [if_pos h2, h2]
      rfl
    · rw [if_neg h2]
      by_cases h3 : c.toNat = 8
      · rw [if_pos h3]
        have hc : c = Char.ofNat 8 := char_eq_of_toNat_eq c (Char.ofNat 8)
          (by rw [char_toNat_ofNat 8 (isValidChar_of_lt 8 (by omega))]; exact h3)
        rw [hc]
        rfl
      · rw [if_neg h3]
        by_cases h4 : c.toNat = 9
        · rw [if_pos h4]
          have hc : c = Char.ofNat 9 := char_eq_of_toNat_eq c (Char.ofNat 9)
            (by rw [char_toNat_ofNat 9 (isValidChar_of_lt 9 (by omega))]; exact h4)
          rw [hc]
          rfl
        · rw [if_neg h4]
          by_cases h5 : c.toNat = 10
          · rw [if_pos h5]
            have hc : c = Char.ofNat 10 := char_eq_of_toNat_eq c (Char.ofNat 10)
              (by rw [char_toNat_ofNat 10 (isValidChar_of_lt 10 (by omega))]; exact h5)
            rw [hc]
            rfl
          · rw [if_neg h5]
            by_cases h6 : c.toNat = 12
            · rw [if_pos h6]
              have hc : c = Char.ofNat 12 := char_eq_of_toNat_eq c (Char.ofNat 12)
                (by rw [char_toNat_ofNat 12 (isValidChar_of_lt 12 (by omega))]; exact h6)
              rw [hc]
              rfl
            · rw [if_neg h6]
              by_cases h7 : c.toNat = 13
              · rw [if_pos h7]
                have hc : c = Char.ofNat 13 := char_eq_of_toNat_eq c (Char.ofNat 13)
                  (by rw [char_toNat_ofNat 13 (isValidChar_of_lt 13 (by omega))]; exact h7)
                rw [hc]
                rfl
              · rw [if_neg h7]
                by_cases h8 : 32 ≤ c.toNat ∧ c.toNat ≤ 126
                · rw [if_pos h8]
                  show decodeOne (c :: tail) = some (c, tail)
                  rw [decodeOne_cons]
                  rw [if_neg h2, if_neg h1]
                · rw [if_neg h8]
                  have hcv : c.val.toNat = c.toNat := rfl
                  by_cases h9 : c.toNat ≤ 65535
                  · rw [if_pos h9]
                    have hsur : ¬ (55296 ≤ c.toNat ∧ c.toNat ≤ 56319) := by
                      have hv := c.valid
                      rcases hv with hv | hv
                      · omega
                      · omega
                    show decodeOne ('\\' :: 'u' :: (hex4 c.toNat ++ tail)) = some (c, tail)
                    rw [decodeOne_cons]
                    rw [if_neg (by decide), if_pos rfl]
                    show decodeEsc 'u' (hex4 c.toNat ++ tail) = some (c, tail)
                    unfold decodeEsc
                    rw [if_neg (by decide), if_neg (by decide), if_neg (by decide),
                        if_neg (by decide), if_neg (by decide), if_neg (by decide),
                        if_neg (by decide), if_pos rfl]
                    rw [decodeU_bmp c.toNat tail (by omega) hsur, Char.ofNat_toNat]
                  · rw [if_neg h9]
                    have hv := c.valid
                    have hub : c.toNat < 1114112 := by
                      rcases hv with hv | hv
                      · omega
                      · omega
                    have hhi : 55296 + (c.toNat - 65536) / 1024 < 65536 := by omega
                    have hlo : 56320 + (c.toNat - 65536) % 1024 < 65536 := by omega
                    show decodeOne
                      ('\\' :: 'u' :: (hex4 (55296 + (c.toNat - 65536) / 1024)
                        ++ ('\\' :: 'u' :: (hex4 (56320 + (c.toNat - 65536) % 1024) ++ tail))))
                      = some (c, tail)
                    rw [decodeOne_cons]
                    rw [if_neg (by decide), if_pos rfl]
                    show decodeEsc 'u' (hex4 (55296 + (c.toNat - 65536) / 1024)
                      ++ ('\\' :: 'u' :: (hex4 (56320 + (c.toNat - 65536) % 1024) ++ tail)))
                      = some (c, tail)
                    unfold decodeEsc
                    rw [if_neg (by decide), if_neg (by decide), if_neg (by decide),
                        if_neg (by decide), if_neg (by decide), if_neg (by decide),
                        if_neg (by decide), if_pos rfl]
                    rw [decodeU_pair (55296 + (c.toNat - 65536) / 1024)
                        (56320 + (c.toNat - 65536) % 1024) tail hhi hlo
                        ⟨by omega, by omega⟩ ⟨by omega, by omega⟩]
                    have harith : 65536 + (55296 + (c.toNat - 65536) / 1024 - 55296) * 1024
                        + (56320 + (c.toNat - 65536) % 1024 - 56320) = c.toNat := by omega
                    rw [harith, Char.ofNat_toNat]

theorem escChar_cons (c : Char) : ∃ c0 cs0, escChar c = c0 :: cs0 ∧ c0 ≠ '"' := by
  unfold escChar
  by_cases h1 : c = '\\'
  · rw [if_pos h1]
    exact ⟨'\\', ['\\'], rfl, by decide⟩
  · rw [if_neg h1]
    by_cases h2 : c = '"'
    · rw [if_pos h2]
      exact ⟨'\\', ['"'], rfl, by decide⟩
    · rw [if_neg h2]
      by_cases h3 : c.toNat = 8
      · rw [if_pos h3]
        exact ⟨'\\', ['b'], rfl, by decide⟩
      · rw [if_neg h3]
        by_cases h4 : c.toNat = 9
        · rw [if_pos h4]
          exact ⟨'\\', ['t'], rfl, by decide⟩
        · rw [if_neg h4]
          by_cases h5 : c.toNat = 10
          · rw [if_pos h5]
            exact ⟨'\\', ['n'], rfl, by decide⟩
          · rw [if_neg h5]
            by_cases h6 : c.toNat = 12
            · rw [if_pos h6]
              exact ⟨'\\', ['f'], rfl, by decide⟩
            · rw [if_neg h6]
              by_cases h7 : c.toNat = 13
              · rw [if_pos h7]
                exact ⟨'\\', ['r'], rfl, by decide⟩
              · rw [if_neg h7]
                by_cases h8 : 32 ≤ c.toNat ∧ c.toNat ≤ 126
                · rw [if_pos h8]
                  exact ⟨c, [], rfl, h2⟩
                · rw [if_neg h8]
                  by_cases h9 : c.toNat ≤ 65535
                  · rw [if_pos h9]
                    exact ⟨'\\', 'u' :: hex4 c.toNat, rfl, by decide⟩
                  · rw [if_neg h9]
                    refine ⟨'\\', 'u' :: (hex4 (55296 + (c.toNat - 65536) / 1024)
                      ++ ('\\' :: 'u' :: hex4 (56320 + (c.toNat - 65536) % 1024))), ?_, by decide⟩
                    simp [List.cons_append]

theorem unescAux_cons (fuel : Nat) (c0 : Char) (rest : List Char) (h : c0 ≠ '"') :
    unescAux (fuel + 1) (c0 :: rest)
      = match decodeOne (c0 :: rest) with
        | some p => Option.map (fun pr => (p.1 :: pr.1, pr.2)) (unescAux fuel p.2)
        | none => none := by
  rw [unescAux]
  rw [if_neg h]

theorem unesc_escList (s : List Char) : ∀ (fuel : Nat) (rest : List Char),
    s.length < fuel →
    unescAux fuel (escList s ++ '"' :: rest) = some (s, rest) := by
  induction s with
  | nil =>
    intro fuel rest h
    cases fuel with
    | zero => omega
    | succ f =>
      show unescAux (f + 1) ('"' :: rest) = some ([], rest)
      rw [unescAux]
      rw [if_pos rfl]
  | cons c cs ih =>
    intro fuel rest h
    cases fuel with
    | zero => simp at h
    | succ f =>
      obtain ⟨c0, cs0, hesc, hq⟩ := escChar_cons c
      have hlist : escList (c :: cs) ++ '"' :: rest
          = c0 :: (cs0 ++ (escList cs ++ '"' :: rest)) := by
        show (escChar c ++ escList cs) ++ '"' :: rest = _
        rw [hesc]
        simp [List.cons_append, List.append_assoc]
      rw [hlist]
      rw [unescAux_cons f c0 _ hq]
      have hdec : decodeOne (c0 :: (cs0 ++ (escList cs ++ '"' :: rest)))
          = some (c, escList cs ++ '"' :: rest) := by
        have hx : c0 :: (cs0 ++ (escList cs ++ '"' :: rest))
            = escChar c ++ (escList cs ++ '"' :: rest) := by
          rw [hesc]
          simp [List.cons_append]
        rw [hx]
        exact decodeOne_escChar c _
      rw [hdec]
      show Option.map (fun pr => (c :: pr.1, pr.2))
        (unescAux f (escList cs ++ '"' :: rest)) = some (c :: cs, rest)
      rw [ih f rest (by simp only [List.length_cons] at h; omega)]
      rfl

theorem natDigitsAux_succ (f n : Nat) :
    natDigitsAux (f + 1) n
      = if n < 10 then [digitChar n] else natDigitsAux f (n / 10) ++ [digitChar (n % 10)] := rfl

theorem natDigitsAux_congr (f1 : Nat) : ∀ (f2 n : Nat), n < f1 → n < f2 →
    natDigitsAux f1 n = natDigitsAux f2 n := by
  induction f1 with
  | zero => intro f2 n h1 h2; omega
  | succ f ih =>
    intro f2 n h1 h2
    cases f2 with
    | zero => omega
    | succ g =>
      rw [natDigitsAux_succ f n, natDigitsAux_succ g n]
      by_cases h10 : n < 10
      · rw [if_pos h10, if_pos h10]
      · rw [if_neg h10, if_neg h10]
        rw [ih g (n / 10) (by omega) (by omega)]

theorem natDigits_eq (n : Nat) : natDigits n
    = if n < 10 then [digitChar n] else natDigits (n / 10) ++ [digitChar (n % 10)] := by
  show natDigitsAux (n + 1) n = _
  rw [natDigitsAux_succ n n]
  by_cases h10 : n < 10
  · rw [if_pos h10, if_pos h10]
  · rw [if_neg h10, if_neg h10]
    unfold natDigits
    rw [natDigitsAux_congr n (n / 10 + 1) (n / 10) (by omega) (by omega)]

theorem digitVal_digitChar (n : Nat) (h : n < 10) : digitVal (digitChar n) = some n := by
  unfold digitVal digitChar
  have ht : (Char.ofNat (48 + n)).toNat = 48 + n :=
    char_toNat_ofNat (48 + n) (isValidChar_of_lt _ (by omega))
  rw [ht, if_pos (by constructor <;> omega)]
  congr 1
  omega

theorem natDigits_cons (n : Nat) : ∃ c cs d, natDigits n = c :: cs ∧ digitVal c = some d := by
  induction n using Nat.strong_induction_on with
  | _ n ih =>
    rw [natDigits_eq]
    by_cases h10 : n < 10
    · rw [if_pos h10]
      exact ⟨digitChar n, [], n, rfl, digitVal_digitChar n h10⟩
    · rw [if_neg h10]
      obtain ⟨c, cs, d, hc, hd⟩ := ih (n / 10) (by omega)
      refine ⟨c, cs ++ [digitChar (n % 10)], d, ?_, hd⟩
      rw [hc]
      rfl

theorem parseDigits_cons (acc : Nat) (c : Char) (l : List Char) :
    parseDigits acc (c :: l)
      = match digitVal c with
        | some d => parseDigits (10 * acc + d) l
        | none => (acc, c :: l) := rfl

theorem parseDigits_append (n : Nat) : ∀ (acc : Nat) (rest : List Char),
    parseDigits acc (natDigits n ++ rest)
      = parseDigits (acc * 10 ^ (natDigits n).length + n) rest := by
  induction n using Nat.strong_induction_on with
  | _ n ih =>
    intro acc rest
    rw [natDigits_eq]
    by_cases h10 : n < 10
    · rw [if_pos h10]
      show parseDigits acc (digitChar n :: rest) = _
      rw [parseDigits_cons, digitVal_digitChar n h10]
      show parseDigits (10 * acc + n) rest = parseDigits (acc * 10 ^ ([digitChar n]).length + n) rest
      have harith : 10 * acc + n = acc * 10 ^ ([digitChar n]).length + n := by
        rw [List.length_singleton, pow_one]
        ring
      rw [harith]
    · rw [if_neg h10]
      rw [List.append_assoc]
      rw [ih (n / 10) (by omega) acc ([digitChar (n % 10)] ++ rest)]
      show parseDigits (acc * 10 ^ (natDigits (n / 10)).length + n / 10)
        (digitChar (n % 10) :: rest) = _
      rw [parseDigits_cons, digitVal_digitChar (n % 10) (by omega)]
      show parseDigits (10 * (acc * 10 ^ (natDigits (n / 10)).length + n / 10) + n % 10) rest = _
      have hn : 10 * (n / 10) + n % 10 = n := by omega
      have harith : 10 * (acc * 10 ^ (natDigits (n / 10)).length + n / 10) + n % 10
          = acc * 10 ^ ((natDigits (n / 10) ++ [digitChar (n % 10)]).length) + n := by
        rw [List.length_append, List.length_singleton, pow_succ]
        calc 10 * (acc * 10 ^ (natDigits (n / 10)).length + n / 10) + n % 10
            = acc * (10 ^ (natDigits (n / 10)).length * 10) + (10 * (n / 10) + n % 10) := by ring
          _ = acc * (10 ^ (natDigits (n / 10)).length * 10) + n := by rw [hn]
      rw [harith]

theorem parseDigits_stop (acc : Nat) (rest : List Char) (h : headNonDigit rest) :
    parseDigits acc rest = (acc, rest) := by
  cases rest with
  | nil => rfl
  | cons c cs =>
    have hc : digitVal c = none := h
    rw [parseDigits_cons, hc]

theorem parseNat_roundtrip (n : Nat) (rest : List Char) (h : headNonDigit rest) :
    parseDigits 0 (natDigits n ++ rest) = (n, rest) := by
  rw [parseDigits_append n 0 rest, parseDigits_stop _ rest h]
  congr 1
  simp

theorem digit_ne_quote (c : Char) (d : Nat) (hd : digitVal c = some d) : c ≠ '"' := by
  intro hh
  rw [hh] at hd
  exact Option.noConfusion hd

theorem digit_ne_minus (c : Char) (d : Nat) (hd : digitVal c = some d) : c ≠ '-' := by
  intro hh
  rw [hh] at hd
  exact Option.noConfusion hd

theorem parseVal_cons (fuel : Nat) (c : Char) (l : List Char) :
    parseVal fuel (c :: l)
      = if c = '"' then
          Option.map (fun pr => (PVal.str (String.mk pr.1), pr.2)) (unescAux fuel l)
        else if c = '-' then
          match l with
          | [] => none
          | d :: _ =>
            match digitVal d with
            | some _ => some (PVal.int (-(Int.ofNat (parseDigits 0 l).1)), (parseDigits 0 l).2)
            | none => none
        else
          match digitVal c with
          | some _ =>
            some (PVal.int (Int.ofNat (parseDigits 0 (c :: l)).1), (parseDigits 0 (c :: l)).2)
          | none => none := rfl

theorem parseVal_pvalChars (v : PVal) (fuel : Nat) (rest : List Char)
    (hfuel : pvalStrLen v < fuel) (hrest : headNonDigit rest) :
    parseVal fuel (pvalChars v ++ rest) = some (v, rest) := by
  cases v with
  | str s =>
    show parseVal fuel (('"' :: (escList s.data ++ ['"'])) ++ rest) = some (PVal.str s, rest)
    have hl : ('"' :: (escList s.data ++ ['"'])) ++ rest
        = '"' :: (escList s.data ++ ('"' :: rest)) := by
      simp [List.cons_append, List.append_assoc]
    rw [hl, parseVal_cons, if_pos rfl, unesc_escList s.data fuel rest hfuel]
    rfl
  | int n =>
    show parseVal fuel (intChars n ++ rest) = some (PVal.int n, rest)
    unfold intChars
    by_cases hneg : n < 0
    · rw [if_pos hneg]
      obtain ⟨c, cs, d, hc, hd⟩ := natDigits_cons n.natAbs
      have hl : natDigits n.natAbs ++ rest = c :: (cs ++ rest) := by
        rw [hc]
        rfl
      show parseVal fuel ('-' :: (natDigits n.natAbs ++ rest)) = some (PVal.int n, rest)
      rw [parseVal_cons, if_neg (by decide), if_pos rfl, hl]
      show (match digitVal c with
            | some _ => some (PVal.int (-(Int.ofNat (parseDigits 0 (c :: (cs ++ rest))).1)),
                (parseDigits 0 (c :: (cs ++ rest))).2)
            | none => none) = some (PVal.int n, rest)
      rw [hd]
      show some (PVal.int (-(Int.ofNat (parseDigits 0 (c :: (cs ++ rest))).1)),
          (parseDigits 0 (c :: (cs ++ rest))).2) = some (PVal.int n, rest)
      rw [← hl, parseNat_roundtrip n.natAbs rest hrest]
      have hint : -(Int.ofNat n.natAbs) = n := by
        have h2 : ((n.natAbs : Nat) : Int) = -n := Int.ofNat_natAbs_of_nonpos (by omega)
        show -((n.natAbs : Nat) : Int) = n
        rw [h2]
        ring
      rw [hint]
    · rw [if_neg hneg]
      obtain ⟨c, cs, d, hc, hd⟩ := natDigits_cons n.toNat
      have hl : natDigits n.toNat ++ rest = c :: (cs ++ rest) := by
        rw [hc]
        rfl
      rw [hl, parseVal_cons, if_neg (digit_ne_quote c d hd), if_neg (digit_ne_minus c d hd), hd]
      show some (PVal.int (Int.ofNat (parseDigits 0 (c :: (cs ++ rest))).1),
          (parseDigits 0 (c :: (cs ++ rest))).2) = some (PVal.int n, rest)
      rw [← hl, parseNat_roundtrip n.toNat rest hrest]
      have hint : Int.ofNat n.toNat = n := by
        show ((n.toNat : Nat) : Int) = n
        exact Int.toNat_of_nonneg (by omega)
      rw [hint]

theorem parseEntry_quote (fuel : Nat) (l : List Char) :
    parseEntry fuel ('"' :: l)
      = match unescAux fuel l with
        | some (kchars, rest1) =>
          match rest1 with
          | ':' :: ' ' :: rest2 =>
            Option.map (fun pr => ((String.mk kchars, pr.1), pr.2)) (parseVal fuel rest2)
          | _ => none
        | none => none := rfl

theorem parseEntry_entryChars (k : String) (v : PVal) (fuel : Nat) (rest : List Char)
    (hfk : k.data.length < fuel) (hfv : pvalStrLen v < fuel) (hrest : headNonDigit rest) :
    parseEntry fuel (entryChars (k, v) ++ rest) = some ((k, v), rest) := by
  have hl : entryChars (k, v) ++ rest
      = '"' :: (escList k.data ++ ('"' :: (':' :: ' ' :: (pvalChars v ++ rest)))) := by
    show (('"' :: (escList k.data ++ ['"'])) ++ (':' :: ' ' :: pvalChars v)) ++ rest = _
    simp [List.cons_append, List.append_assoc]
  rw [hl, parseEntry_quote fuel]
  rw [unesc_escList k.data fuel (':' :: ' ' :: (pvalChars v ++ rest)) hfk]
  show Option.map (fun pr => ((String.mk k.data, pr.1), pr.2))
    (parseVal fuel (pvalChars v ++ rest)) = some ((k, v), rest)
  rw [parseVal_pvalChars v fuel rest hfv hrest]
  rfl

theorem entriesChars_cont (rest : List (String × PVal)) : ∀ (e : String × PVal),
    entriesChars (e :: rest) = entryChars e ++ contChars rest := by
  induction rest with
  | nil =>
    intro e
    show entryChars e = entryChars e ++ []
    rw [List.append_nil]
  | cons f r ih =>
    intro e
    show entryChars e ++ ',' :: ' ' :: entriesChars (f :: r)
      = entryChars e ++ ',' :: ' ' :: (entryChars f ++ contChars r)
    rw [ih f]

theorem headNonDigit_cont (m : List (String × PVal)) (rest : List Char) :
    headNonDigit (contChars m ++ '\x7d' :: rest) := by
  cases m with
  | nil => show digitVal '\x7d' = none; rfl
  | cons e r => show digitVal ',' = none; rfl

theorem parseEntriesAux_succ (fuel : Nat) (c : Char) (l : List Char) :
    parseEntriesAux (fuel + 1) (c :: l)
      = if c = '\x7d' then some ([], l)
        else if c = ',' then
          match l with
          | ' ' :: rest2 =>
            match parseEntry fuel rest2 with
            | some (e, rest3) =>
              Option.map (fun pr => (e :: pr.1, pr.2)) (parseEntriesAux fuel rest3)
            | none => none
          | _ => none
        else none := rfl

theorem parseEntriesAux_cont (m : List (String × PVal)) : ∀ (fuel : Nat) (rest : List Char),
    entriesSize m < fuel →
    parseEntriesAux fuel (contChars m ++ '\x7d' :: rest) = some (m, rest) := by
  induction m with
  | nil =>
    intro fuel rest h
    cases fuel with
    | zero => simp [entriesSize] at h
    | succ f =>
      show parseEntriesAux (f + 1) ('\x7d' :: rest) = some ([], rest)
      rw [parseEntriesAux_succ, if_pos rfl]
  | cons e m0 ih =>
    intro fuel rest h
    obtain ⟨k, v⟩ := e
    cases fuel with
    | zero => simp [entriesSize] at h
    | succ f =>
      have hb : entrySize (k, v) + entriesSize m0 + 1 < f + 1 := h
      have hes : entrySize (k, v) = k.data.length + pvalStrLen v + 1 := rfl
      have hl : contChars ((k, v) :: m0) ++ '\x7d' :: rest
          = ',' :: ' ' :: (entryChars (k, v) ++ (contChars m0 ++ '\x7d' :: rest)) := by
        show (',' :: ' ' :: (entryChars (k, v) ++ contChars m0)) ++ '\x7d' :: rest = _
        simp [List.cons_append, List.append_assoc]
      rw [hl, parseEntriesAux_succ, if_neg (by decide), if_pos rfl]
      show (match parseEntry f (entryChars (k, v) ++ (contChars m0 ++ '\x7d' :: rest)) with
            | some (e, rest3) =>
              Option.map (fun pr => (e :: pr.1, pr.2)) (parseEntriesAux f rest3)
            | none => none) = some ((k, v) :: m0, rest)
      rw [parseEntry_entryChars k v f (contChars m0 ++ '\x7d' :: rest)
        (by omega) (by omega) (headNonDigit_cont m0 rest)]
      show Option.map (fun pr => ((k, v) :: pr.1, pr.2))
        (parseEntriesAux f (contChars m0 ++ '\x7d' :: rest)) = some ((k, v) :: m0, rest)
      rw [ih f rest (by omega)]
      rfl

theorem parseObjChars_quote (fuel : Nat) (l : List Char) :
    parseObjChars fuel ('\x7b' :: '"' :: l)
      = match parseEntry fuel ('"' :: l) with
        | some (e, rest2) =>
          Option.map (fun pr => (e :: pr.1, pr.2)) (parseEntriesAux fuel rest2)
        | none => none := rfl

theorem parseObj_objChars (m : List (String × PVal)) (fuel : Nat) (rest : List Char)
    (hfuel : entriesSize m < fuel) :
    parseObjChars fuel (objChars m ++ rest) = some (m, rest) := by
  cases m with
  | nil => rfl
  | cons e m0 =>
    obtain ⟨k, v⟩ := e
    have hb : entrySize (k, v) + entriesSize m0 + 1 < fuel := hfuel
    have hes : entrySize (k, v) = k.data.length + pvalStrLen v + 1 := rfl
    have hl : objChars ((k, v) :: m0) ++ rest
        = '\x7b' :: '"' :: (escList k.data
            ++ ('"' :: (':' :: ' ' :: (pvalChars v ++ (contChars m0 ++ '\x7d' :: rest))))) := by
      show ('\x7b' :: (entriesChars ((k, v) :: m0) ++ ['\x7d'])) ++ rest = _
      rw [entriesChars_cont m0 (k, v)]
      show ('\x7b' :: (((('"' :: (escList k.data ++ ['"'])) ++ (':' :: ' ' :: pvalChars v))
        ++ contChars m0) ++ ['\x7d'])) ++ rest = _
      simp [List.cons_append, List.append_assoc]
    rw [hl, parseObjChars_quote fuel]
    have hl2 : ('"' : Char) :: (escList k.data
        ++ ('"' :: (':' :: ' ' :: (pvalChars v ++ (contChars m0 ++ '\x7d' :: rest)))))
        = entryChars (k, v) ++ (contChars m0 ++ '\x7d' :: rest) := by
      show _ = (('"' :: (escList k.data ++ ['"'])) ++ (':' :: ' ' :: pvalChars v))
        ++ (contChars m0 ++ '\x7d' :: rest)
      simp [List.cons_append, List.append_assoc]
    rw [hl2]
    rw [parseEntry_entryChars k v fuel (contChars m0 ++ '\x7d' :: rest)
      (by omega) (by omega) (headNonDigit_cont m0 rest)]
    show Option.map (fun pr => ((k, v) :: pr.1, pr.2))
      (parseEntriesAux fuel (contChars m0 ++ '\x7d' :: rest)) = some ((k, v) :: m0, rest)
    rw [parseEntriesAux_cont m0 fuel rest (by omega)]
    rfl

/-- The serialization of an entry list is injective: decoding it with
enough fuel recovers the list. -/
theorem objChars_inj (m1 m2 : List (String × PVal)) (h : objChars m1 = objChars m2) :
    m1 = m2 := by
  have h1 := parseObj_objChars m1 (entriesSize m1 + entriesSize m2 + 1) [] (by omega)
  have h2 := parseObj_objChars m2 (entriesSize m1 + entriesSize m2 + 1) [] (by omega)
  rw [List.append_nil] at h1 h2
  rw [← h, h1] at h2
  have h4 : (m1, ([] : List Char)) = (m2, []) := Option.some.inj h2
  exact congrArg Prod.fst h4

theorem jsonDumps_inj (m1 m2 : List (String × PVal)) (h : jsonDumps m1 = jsonDumps m2) :
    sortByKey m1 = sortByKey m2 := by
  have hchars : objChars (sortByKey m1) = objChars (sortByKey m2) := congrArg String.data h
  exact objChars_inj _ _ hchars

/-- C6: the cache key is invariant under the insertion order of the
parameters and, for a fixed path, injective on parameter mappings: two
mappings with distinct keys produce the same key string exactly when they
hold the same key-value pairs, so changing any value or adding or removing
a key changes the key string. -/
theorem c6_cache_key_determinism (path : String) (m1 m2 : List (String × PVal))
    (h1 : (m1.map Prod.fst).Nodup) (h2 : (m2.map Prod.fst).Nodup) :
    cacheKey path m1 = cacheKey path m2 ↔ m1.Perm m2 := by
  constructor
  · intro h
    have hdata := congrArg String.data h
    unfold cacheKey at hdata
    simp only [String.data_append] at hdata
    have hd : jsonDumps m1 = jsonDumps m2 :=
      string_data_inj _ _ (List.append_cancel_left hdata)
    have hsort := jsonDumps_inj m1 m2 hd
    have hp : (sortByKey m1).Perm m2 := by
      rw [hsort]
      exact sortByKey_perm m2
    exact (sortByKey_perm m1).symm.trans hp
  · intro hp
    show path ++ "?" ++ jsonDumps m1 = path ++ "?" ++ jsonDumps m2
    unfold jsonDumps
    rw [sortByKey_eq_of_perm m1 m2 h1 hp]

/-- Witness for c6: the two orderings of the same two-parameter mapping
give the identical key. -/
theorem c6_cache_key_determinism_witness :
    cacheKey "/x" [("b", PVal.int 1), ("a", PVal.int 2)]
      = cacheKey "/x" [("a", PVal.int 2), ("b", PVal.int 1)] :=
  (c6_cache_key_determinism "/x" [("b", PVal.int 1), ("a", PVal.int 2)]
    [("a", PVal.int 2), ("b", PVal.int 1)] (by decide) (by decide)).mpr
    (List.Perm.swap ("a", PVal.int 2) ("b", PVal.int 1) [])

